import Mathlib

/-!
# Shallow embedding of the buddy allocator (src/buddy.c)

The C source is a fixed-arena power-of-two buddy allocator with
`MIN_ORDER = 12` and `MAX_ORDER = 20`.  We embed it as a pure state
machine:

* addresses are modelled as byte offsets into the arena `g_memory`
  (a C pointer `p` corresponds to the offset `p - g_memory : Nat`);
* the page descriptor table `g_pages` is modelled by the list of its
  `order` fields (the `index` and `memory` fields are the constant
  values `i` and `PAGE_TO_ADDR i` set by `buddy_init` and never changed,
  so they are kept implicit);
* each free list `free_area[o]` is modelled as a `List Nat` of page
  indices.

The doubly linked list library (`list.h`) is not part of the sources;
it is an external collaborator.  Modelled from the spec: the spec
requires of the list container O(1) insertion, O(1) removal and a
forward traversal producing nodes in insertion order; hence `list_add`
is modelled as appending to the back of the list, so that the forward
traversal order (`head->next`, `head->next->next`, ...) is the
insertion order, the first element of the model list is the node
`free_area[o].next`, and `list_empty` is emptiness of the model list.

C `for` loops are modelled by structural recursion on an explicit
fuel counter so that all definitions reduce by `rfl`/`decide`; the
fuel is always the exact number of remaining loop iterations, so the
recursion performs precisely the iterations the C loop performs.

Out-of-model behaviour (reads of uninitialized or out-of-bounds
memory, `list_del` on a node whose linkage is unknown) is represented
by `Option`: `none` marks a C execution that is undefined.  All claims
below are settled on executions that never reach those cases.
-/

/-- `#define MIN_ORDER 12` (buddy.c line 24). -/
def MIN_ORDER : Nat := 12

/-- `#define MAX_ORDER 20` (buddy.c line 25). -/
def MAX_ORDER : Nat := 20

/-- `#define PAGE_SIZE (1<<MIN_ORDER)` (buddy.c line 27). -/
def PAGE_SIZE : Nat := 2 ^ MIN_ORDER

/-- Size of the arena `char g_memory[1<<MAX_ORDER]` (buddy.c line 65). -/
def MEMORY_SIZE : Nat := 2 ^ MAX_ORDER

/-- Number of entries of `page_t g_pages[(1<<MAX_ORDER)/PAGE_SIZE]`
(buddy.c line 68). -/
def N_PAGES : Nat := MEMORY_SIZE / PAGE_SIZE

/-- `PAGE_TO_ADDR(page_idx)` (buddy.c line 29), as an offset. -/
def PAGE_TO_ADDR (page_idx : Nat) : Nat := page_idx * PAGE_SIZE

/-- `ADDR_TO_PAGE(addr)` (buddy.c line 32), on offsets. -/
def ADDR_TO_PAGE (addr : Nat) : Nat := addr / PAGE_SIZE

/-- `BUDDY_ADDR(addr, o)` (buddy.c lines 35-36): offset XOR `(1 << o)`. -/
def BUDDY_ADDR (addr : Nat) (o : Nat) : Nat := addr ^^^ 2 ^ o

/-- The mutable global state of buddy.c:
`g_pages_order i` is `g_pages[i].order` (an `Int`, since the C field is
a signed `int` holding `-1` as the unset sentinel), and `free_area o`
is the free list of order `o` as the list of the page indices of its
nodes in forward-traversal order. -/
structure BuddyState where
  g_pages_order : List Int
  free_area : List (List Nat)
deriving DecidableEq, Repr

/-- `buddy_init` (buddy.c lines 83-100): every descriptor order is set
to `-1`, every free list is cleared, and the single whole-arena block
(page 0) is put on the `MAX_ORDER` free list. -/
def buddy_init : BuddyState :=
  { g_pages_order := List.replicate N_PAGES (-1)
    free_area := (List.replicate (MAX_ORDER + 1) []).set MAX_ORDER [0] }

/-- Loop body of `get_order` (buddy.c lines 229-233):
`for (order = MIN_ORDER; order <= MAX_ORDER; order++) if (1 << order >= x) return order;`.
The fuel is the number of remaining iterations, `MAX_ORDER + 1 - order`. -/
def get_order_loop (x : Int) : Nat → Nat → Int
  | _order, 0 => -1
  | order, fuel + 1 =>
      if x ≤ 2 ^ order then (order : Int) else get_order_loop x (order + 1) fuel

/-- `get_order` (buddy.c lines 228-235). -/
def get_order (x : Int) : Int :=
  get_order_loop x MIN_ORDER (MAX_ORDER + 1 - MIN_ORDER)

/-- `split_page` (buddy.c lines 150-158).  `page_off` is the offset of
the page being split (the C `page->memory`, which never changes through
the recursion); the first `Nat` argument is the current order `i`, the
second the target `order`.  Each step registers the right half
(`BUDDY_ADDR(page->memory, i-1)`) in `free_area[i-1]` with its
descriptor order set to `i-1`, then recurses on the left half.

The C guard is `i != order`; the function is only ever invoked with
`order <= i` (from `buddy_alloc`, where `order < i`), on which domain
the guard used here, `order < i`, agrees with the source (for
`i < order` the C recursion would not terminate). -/
def split_page : BuddyState → Nat → Nat → Nat → BuddyState
  | s, _page_off, 0, _order => s
  | s, page_off, i + 1, order =>
      if order < i + 1 then
        let new_page_order := i
        let buddy_idx := ADDR_TO_PAGE (BUDDY_ADDR page_off new_page_order)
        let s1 : BuddyState :=
          { g_pages_order := s.g_pages_order.set buddy_idx (new_page_order : Int)
            free_area :=
              s.free_area.set new_page_order
                ((s.free_area.getD new_page_order []) ++ [buddy_idx]) }
        split_page s1 page_off i order
      else s

/-- Scan loop of `buddy_alloc` (buddy.c lines 120-135):
`for (i = order; i <= MAX_ORDER; i++)`, stopping at the first non-empty
free list, popping its first node (`free_area[i].next`), splitting when
`i > order`, and recording the allocated order in the descriptor.
Returns the allocated offset (or `none` for the C `NULL`) together with
the state.  The fuel is `MAX_ORDER + 1 - i`. -/
def alloc_scan : BuddyState → Nat → Nat → Nat → Option Nat × BuddyState
  | s, _order, _i, 0 => (none, s)
  | s, order, i, fuel + 1 =>
      match s.free_area.getD i [] with
      | [] => alloc_scan s order (i + 1) fuel
      | p :: rest =>
          -- list_del_init(&(page->list)) : pop the head node
          let s1 : BuddyState := { s with free_area := s.free_area.set i rest }
          if order = i then
            (some (PAGE_TO_ADDR p),
             { s1 with g_pages_order := s1.g_pages_order.set p (order : Int) })
          else
            let s2 := split_page s1 (PAGE_TO_ADDR p) i order
            (some (PAGE_TO_ADDR p),
             { s2 with g_pages_order := s2.g_pages_order.set p (order : Int) })

/-- `buddy_alloc` (buddy.c lines 116-138).  `size` is a C `int`.
Returns `(none, s)` (the C `return NULL`, which mutates nothing) when
`get_order` fails or every scanned free list is empty. -/
def buddy_alloc (s : BuddyState) (size : Int) : Option Nat × BuddyState :=
  match get_order size with
  | Int.ofNat order => alloc_scan s order order (MAX_ORDER + 1 - order)
  | Int.negSucc _ => (none, s)

/-- Coalescing loop of `buddy_free` (buddy.c lines 176-198):
`for (i = current_page->order; i <= MAX_ORDER; i++)`.

State threaded through the loop: `cur_off` is `current_page->memory`
(always page aligned), `index` is the C variable `index`
(`current_page->index`), `temp` is the C variable `page_t* temp`
(`none` models the initial `NULL`), `i` the loop counter, and the last
argument the fuel `MAX_ORDER + 1 - i`.

Loop body, faithfully to the source:
* `buddy_page = &g_pages[ADDR_TO_PAGE(BUDDY_ADDR(current_page->memory, i))]`;
* the `list_for_each` over `free_area[i]` assigns
  `temp = list_entry(free_area[i].next, ...)` (the FIRST node of the
  list) on every iteration, so after the traversal `temp` is the first
  node if the list is non-empty and keeps its previous value otherwise;
  `current_node` is never `NULL` after the traversal (it is either the
  matching node or the list head), so the exit test
  `current_node == NULL || temp != buddy_page` reduces to
  `temp != buddy_page`;
* on `temp != buddy_page`: `g_pages[index].order = -1;`
  `list_add(&g_pages[index].list, &free_area[i]); return;`;
* otherwise: if `buddy_page->memory < current_page->memory` the merged
  block is rebased to the buddy, and `list_del_init(&buddy_page->list)`
  removes the buddy node (under this condition the buddy is the first
  node of `free_area[i]`, so the removal drops the head).

`none` marks the two situations whose C behaviour depends on memory
this model does not represent: taking the merge branch via a stale
`temp` while `free_area[i]` is empty (then `list_del_init` operates on
a node whose linkage is unknown), and a buddy page index outside
`g_pages` in the merge branch (out-of-bounds dereference
`buddy_page->memory`).  Exhausting the fuel models the loop running
past `i = MAX_ORDER`, which returns without inserting the block. -/
def buddy_free_loop : BuddyState → Nat → Nat → Option Nat → Nat → Nat → Option BuddyState
  | s, _cur_off, _index, _temp, _i, 0 => some s
  | s, cur_off, index, temp, i, fuel + 1 =>
      let buddy_idx := ADDR_TO_PAGE (BUDDY_ADDR cur_off i)
      let l := s.free_area.getD i []
      let temp1 : Option Nat := match l with | [] => temp | q :: _ => some q
      if temp1 = some buddy_idx then
        match l with
        | _q :: rest =>
            if buddy_idx < N_PAGES then
              let buddy_off := PAGE_TO_ADDR buddy_idx
              let cur2 := if buddy_off < cur_off then buddy_off else cur_off
              let index2 := if buddy_off < cur_off then buddy_idx else index
              let s1 : BuddyState := { s with free_area := s.free_area.set i rest }
              buddy_free_loop s1 cur2 index2 temp1 (i + 1) fuel
            else none
        | [] => none
      else
        some { g_pages_order := s.g_pages_order.set index (-1)
               free_area := s.free_area.set i ((s.free_area.getD i []) ++ [index]) }

/-- `buddy_free` (buddy.c lines 169-199).  `addr` is the offset being
freed.  The function reads `g_pages[ADDR_TO_PAGE(addr)].order` and runs
the coalescing loop from that order.

`none` marks executions that are undefined in C: a page index outside
`g_pages`, or a recorded order outside `[MIN_ORDER, MAX_ORDER]` (order
`-1` makes line 172 evaluate `1 << -1`, and any order below `MIN_ORDER`
makes the loop operate on the never-initialized lists
`free_area[0..MIN_ORDER-1]`).  Neither case is reachable by freeing an
address previously returned by `buddy_alloc` and not freed since. -/
def buddy_free (s : BuddyState) (addr : Nat) : Option BuddyState :=
  let page_idx := ADDR_TO_PAGE addr
  if page_idx < N_PAGES then
    match s.g_pages_order.getD page_idx 0 with
    | Int.ofNat o =>
        if MIN_ORDER ≤ o ∧ o ≤ MAX_ORDER then
          buddy_free_loop s (PAGE_TO_ADDR page_idx) page_idx none o (MAX_ORDER + 1 - o)
        else none
    | Int.negSucc _ => none
  else none

/-- `buddy_dump` (buddy.c lines 206-218), as data: for each order from
`MIN_ORDER` to `MAX_ORDER` the pair of the order and the number of
nodes on its free list. -/
def buddy_dump (s : BuddyState) : List (Nat × Nat) :=
  (List.range' MIN_ORDER (MAX_ORDER + 1 - MIN_ORDER)).map
    (fun o => (o, (s.free_area.getD o []).length))

/-! ## Call sequences

A client interacts with the allocator through `buddy_alloc` and
`buddy_free`.  `run` executes a sequence of calls from a state,
keeping the ghost list `al` of in-flight allocations as pairs
`(offset, order)` in the order they were made (most recent first).
A `free` call is admitted only when its address is the address of an
in-flight allocation — exactly the "every freed address was previously
returned by buddy_alloc and not yet freed" discipline of the spec;
anything else is out of scope (`none`). -/

inductive Op where
  | alloc (size : Int)
  | free (addr : Nat)
deriving DecidableEq, Repr

/-- One call.  An `alloc` that returns `NULL` changes nothing and
records nothing; a successful `alloc size` records
`(offset, get_order size)` (the order the code stores in the
descriptor); a valid `free addr` removes the in-flight entry of
address `addr`. -/
def step (s : BuddyState) (al : List (Nat × Nat)) : Op → Option (BuddyState × List (Nat × Nat))
  | Op.alloc size =>
      match buddy_alloc s size with
      | (some off, s1) => some (s1, (off, (get_order size).toNat) :: al)
      | (none, s1) => some (s1, al)
  | Op.free addr =>
      if al.any (fun b => b.1 = addr) then
        match buddy_free s addr with
        | some s1 => some (s1, al.eraseP (fun b => b.1 == addr))
        | none => none
      else none

/-- Execute a sequence of calls. -/
def run : BuddyState → List (Nat × Nat) → List Op → Option (BuddyState × List (Nat × Nat))
  | s, al, [] => some (s, al)
  | s, al, op :: ops =>
      match step s al op with
      | some (s1, al1) => run s1 al1 ops
      | none => none

/-! ## Blocks, tiling, and the allocator invariant (analysis layer)

A block is a pair `(offset, order)` standing for the byte range
`[offset, offset + 2^order)`.  The free blocks of a state are read off
the free-list directory exactly as `buddy_dump` reports them: page `p`
on `free_area[o]` is the free block `(p * PAGE_SIZE, o)`. -/

/-- Does block `b` cover byte `a`? -/
def coversb (a : Nat) (b : Nat × Nat) : Bool :=
  decide (b.1 ≤ a ∧ a < b.1 + 2 ^ b.2)

/-- The free blocks contributed by the lists `free_area[0..n)`. -/
def freeBlocksAux (s : BuddyState) : Nat → List (Nat × Nat)
  | 0 => []
  | n + 1 => freeBlocksAux s n ++ (s.free_area.getD n []).map (fun p => (PAGE_TO_ADDR p, n))

/-- All free blocks of a state. -/
def freeBlocks (s : BuddyState) : List (Nat × Nat) :=
  freeBlocksAux s (MAX_ORDER + 1)

/-- A list of blocks exactly tiles the arena: every byte of the arena
is covered by exactly one block of the list (counted with
multiplicity) — no gaps, no overlaps. -/
def ExactTiling (bs : List (Nat × Nat)) : Prop :=
  ∀ a, a < MEMORY_SIZE → bs.countP (coversb a) = 1

/-- A structurally legal block: order between `MIN_ORDER` and
`MAX_ORDER`, offset aligned to the block size, block inside the arena. -/
def GoodBlock (b : Nat × Nat) : Prop :=
  MIN_ORDER ≤ b.2 ∧ b.2 ≤ MAX_ORDER ∧ 2 ^ b.2 ∣ b.1 ∧ b.1 + 2 ^ b.2 ≤ MEMORY_SIZE

/-- The allocator invariant, relating a state to the ghost list of
in-flight allocations. -/
structure BuddyInv (s : BuddyState) (al : List (Nat × Nat)) : Prop where
  lenP : s.g_pages_order.length = N_PAGES
  lenF : s.free_area.length = MAX_ORDER + 1
  tiling : ExactTiling (al ++ freeBlocks s)
  good : ∀ b ∈ al ++ freeBlocks s, GoodBlock b
  allocOrder : ∀ b ∈ al, s.g_pages_order.getD (ADDR_TO_PAGE b.1) 0 = (b.2 : Int)

/-! ## Helper facts about the scan loop of buddy_alloc -/

/-- If some free list in the scanned range is non-empty, the scan
returns an address. -/
theorem alloc_scan_pos :
    ∀ (fuel i : Nat) (s : BuddyState) (order : Nat),
      (∃ j, i ≤ j ∧ j < i + fuel ∧ s.free_area.getD j [] ≠ []) →
      ∃ off, (alloc_scan s order i fuel).1 = some off := by
  intro fuel
  induction fuel with
  | zero => intro i s order ⟨j, h1, h2, _⟩; omega
  | succ fuel ih =>
      intro i s order ⟨j, h1, h2, h3⟩
      rw [alloc_scan]
      cases hl : s.free_area.getD i [] with
      | nil =>
          have hij : i ≠ j := by intro h; exact h3 (h ▸ hl)
          exact ih (i + 1) s order ⟨j, by omega, by omega, h3⟩
      | cons p rest =>
          by_cases ho : order = i
          · exact ⟨PAGE_TO_ADDR p, by simp [ho]⟩
          · exact ⟨PAGE_TO_ADDR p, by simp [ho]⟩

/-! ## Claim C10: the size >= 1 precondition is not enforced -/

/-- C10: `get_order` returns `MIN_ORDER` for every size at most
`2^MIN_ORDER` — including 0 and every negative size — because its very
first iteration tests `1 << MIN_ORDER >= x`.  Consequently
`buddy_alloc` with a non-positive size does not fail: whenever some
free list between `MIN_ORDER` and `MAX_ORDER` is non-empty it returns
an address, and the recorded order of the handed-out block is
`MIN_ORDER` (a `2^MIN_ORDER`-byte block). -/
theorem claim_C10 (x : Int) (s : BuddyState)
    (hx : x ≤ 2 ^ MIN_ORDER)
    (hs : ∃ j, MIN_ORDER ≤ j ∧ j ≤ MAX_ORDER ∧ s.free_area.getD j [] ≠ []) :
    get_order x = (MIN_ORDER : Int) ∧ ∃ off, (buddy_alloc s x).1 = some off := by
  have horder : get_order x = (MIN_ORDER : Int) := by
    show get_order_loop x MIN_ORDER 9 = (MIN_ORDER : Int)
    rw [get_order_loop, if_pos hx]
  refine ⟨horder, ?_⟩
  obtain ⟨j, h1, h2, h3⟩ := hs
  have : buddy_alloc s x = alloc_scan s MIN_ORDER MIN_ORDER (MAX_ORDER + 1 - MIN_ORDER) := by
    unfold buddy_alloc
    rw [horder]
  rw [this]
  exact alloc_scan_pos (MAX_ORDER + 1 - MIN_ORDER) MIN_ORDER s MIN_ORDER
    ⟨j, h1, by omega, h3⟩

/-- C10 witness: size 0 on the freshly initialized allocator. -/
theorem claim_C10_witness :
    get_order 0 = (MIN_ORDER : Int) ∧ ∃ off, (buddy_alloc buddy_init 0).1 = some off :=
  claim_C10 0 buddy_init (by decide)
    ⟨MAX_ORDER, by decide, by decide, by decide⟩

/-! ## Claim C9: the concrete two-page scenario

The first three steps of the spec scenario are exactly as claimed:
`alloc(4096)` returns page 0, a second `alloc(4096)` returns
`A0 + 4096`, and `free(A0)` files page 0 as a free block of order 12
without merging (its buddy, page 1, is still allocated).  The last
step is NOT as claimed: `free(A1)` does merge pages 0 and 1, but the
coalescing does not stop at order 13 — the buddy blocks left by the
original split are on the free lists at every order, so the merge
chains all the way up and leaves one free block of order 20 covering
the whole arena, and no free block of order 13 at all. -/

/-- C9 counterexample: after `init; alloc(4096); alloc(4096); free(A0);
free(A1)` the order-13 free list is empty (so `free(A1)` did not leave
"one free block of order 13 covering the original two pages"); the
merged block ended up on the order-20 list. -/
theorem claim_C9_counterexample :
    (run buddy_init [] [Op.alloc 4096, Op.alloc 4096, Op.free 0, Op.free 4096]).map
        (fun p => (p.1.free_area.getD 13 [], p.1.free_area.getD 20 [])) =
      some ([], [0]) := by
  decide

/-- C9 (amended): `alloc(4096)` returns address 0 (page 0) recorded at
order 12; a second `alloc(4096)` returns 4096 = A0 + 4096; `free(A0)`
leaves the free block of order 12 at page 0 unmerged (its buddy is
still allocated); `free(A1)` merges pages 0 and 1 and the coalescing
continues through the free split remnants at every order, ending with
the single whole-arena free block of order 20 at page 0 (all other
free lists empty). -/
theorem claim_C9 :
    (run buddy_init [] [Op.alloc 4096]).map Prod.snd = some [(0, 12)] ∧
    (run buddy_init [] [Op.alloc 4096, Op.alloc 4096]).map Prod.snd =
      some [(4096, 12), (0, 12)] ∧
    (run buddy_init [] [Op.alloc 4096, Op.alloc 4096, Op.free 0]).map
        (fun p => (p.1.free_area.getD 12 [], p.1.free_area.getD 13 [], p.2)) =
      some ([0], [2], [(4096, 12)]) ∧
    (run buddy_init [] [Op.alloc 4096, Op.alloc 4096, Op.free 0, Op.free 4096]).map
        (fun p => ((List.range' MIN_ORDER 8).map (fun o => p.1.free_area.getD o []),
                   p.1.free_area.getD 20 [], p.2)) =
      some ([[], [], [], [], [], [], [], []], [0], []) := by
  refine ⟨by decide, by decide, by decide, by decide⟩

/-! ## Claim C2: the coalescing membership test

The spec (§4.3 step 2b/2c, and §9 where it flags the defect) requires
merging exactly when the buddy is a member of `free_area[k]`,
regardless of its position.  In the source the search loop assigns
`temp = list_entry(free_area[i].next, page_t, list)` — the first node
of the list — on every traversal step, and the merge is gated on
`temp == buddy_page`; so a buddy sitting anywhere behind the first
node is not merged. -/

/-- C2: the code contradicts the claim.  After
`init; alloc(4096) x4; free(8192); free(0)` the order-12 free list is
`[2, 0]` (pages 2 and 0).  Freeing 4096 then has buddy
`BUDDY_ADDR(4096,12) = 0`: page 0 IS a member of `free_area[12]`, but
not its first node, so `buddy_free` performs no merge — it files page 1
on the order-12 list (final list `[2, 0, 1]`, order-13 list still
empty), where the claim requires page 0 to be removed and a merged
order-13 block to continue coalescing. -/
theorem claim_C2_code_bug :
    (run buddy_init []
        [Op.alloc 4096, Op.alloc 4096, Op.alloc 4096, Op.alloc 4096,
         Op.free 8192, Op.free 0]).map (fun p => p.1.free_area.getD 12 []) =
      some [2, 0] ∧
    BUDDY_ADDR 4096 12 = PAGE_TO_ADDR 0 ∧
    (run buddy_init []
        [Op.alloc 4096, Op.alloc 4096, Op.alloc 4096, Op.alloc 4096,
         Op.free 8192, Op.free 0, Op.free 4096]).map
        (fun p => (p.1.free_area.getD 12 [], p.1.free_area.getD 13 [])) =
      some ([2, 0, 1], []) := by
  refine ⟨by decide, by decide, by decide⟩

/-! ## Claim C4: merge-to-completion round trip

The claim fails on the code.  Because of the head-only membership test
(claim C2) the allocator can reach states holding two unmerged buddies
on the same free list.  Freeing the block returned by a splitting
`alloc` then coalesces not only with the just-split right halves but
also with such a pre-existing pair, ending in a strictly more merged
configuration than before the split. -/

/-- C4: the code contradicts the claim.  After
`init; alloc(8192) x3; free(0); free(8192); alloc(8192)` the free lists
hold `free_area[12] = []`, `free_area[13] = [0, 2]` (pages 0-1 and 2-3:
two buddies at order 13, left unmerged by the head-only test), and
`free_area[14] = []`.  `alloc(4096)` splits the order-13 block at page
0 (returns address 0, right half page 1 filed at order 12) — and the
immediately following `free(0)`, with no intervening operation, merges
page 0 with page 1, then with pages 2-3, and files pages 0-3 at order
14: the free lists end as `12:[], 13:[], 14:[0]`, not the pre-split
`12:[], 13:[0,2], 14:[]`. -/
theorem claim_C4_code_bug :
    (run buddy_init []
        [Op.alloc 8192, Op.alloc 8192, Op.alloc 8192,
         Op.free 0, Op.free 8192, Op.alloc 8192]).map
        (fun p => (p.1.free_area.getD 12 [], p.1.free_area.getD 13 [],
                   p.1.free_area.getD 14 [])) =
      some ([], [0, 2], []) ∧
    (run buddy_init []
        [Op.alloc 8192, Op.alloc 8192, Op.alloc 8192,
         Op.free 0, Op.free 8192, Op.alloc 8192, Op.alloc 4096]).map
        (fun p => (p.1.free_area.getD 12 [], p.1.free_area.getD 13 [], p.2)) =
      some ([1], [2], [(0, 12), (24576, 13), (16384, 13)]) ∧
    (run buddy_init []
        [Op.alloc 8192, Op.alloc 8192, Op.alloc 8192,
         Op.free 0, Op.free 8192, Op.alloc 8192, Op.alloc 4096, Op.free 0]).map
        (fun p => (p.1.free_area.getD 12 [], p.1.free_area.getD 13 [],
                   p.1.free_area.getD 14 [])) =
      some ([], [], [0]) := by
  refine ⟨by decide, by decide, by decide⟩

/-! ## Claims C3 and C7: what happens where merging stops -/

/-- C3 counterexample: the coalescing loop of `buddy_free` runs its
body at `i = MAX_ORDER` and there computes the buddy page-descriptor
index `ADDR_TO_PAGE (BUDDY_ADDR cur_off MAX_ORDER)`.  After
`init; alloc(2^MAX_ORDER); free(0)` the freed block is the whole arena
(`cur_off = 0`), the loop reaches `i = MAX_ORDER` (observable: the
block is filed on the `free_area[MAX_ORDER]` list), and the computed
buddy index is `2^(MAX_ORDER-MIN_ORDER) = 256 = N_PAGES`, one past the
end of `g_pages` — contradicting "never computes … an index outside
g_pages".  (The resulting one-past-the-end pointer is only compared,
never dereferenced, because the merge test cannot succeed there.) -/
theorem claim_C3_counterexample :
    (run buddy_init [] [Op.alloc 1048576, Op.free 0]).map
        (fun p => p.1.free_area.getD MAX_ORDER []) = some [0] ∧
    ADDR_TO_PAGE (BUDDY_ADDR 0 MAX_ORDER) = N_PAGES := by
  refine ⟨by decide, by decide⟩

/-- C7 counterexample: the claim requires the descriptor order of the
freed (merged) block to be set to the order `k` at which merging
stopped.  After `init; alloc(2^MAX_ORDER); free(0)` merging stops at
`k = MAX_ORDER = 20` and the block is filed on `free_area[20]`, but
line 189 of buddy.c executes `g_pages[index].order = -1`: the head
descriptor holds `-1`, not `20`. -/
theorem claim_C7_counterexample :
    (run buddy_init [] [Op.alloc 1048576, Op.free 0]).map
        (fun p => (p.1.free_area.getD MAX_ORDER [], p.1.g_pages_order.getD 0 0)) =
      some ([0], -1) ∧ (-1 : Int) ≠ (MAX_ORDER : Int) := by
  refine ⟨by decide, by decide⟩

/-! ## Arithmetic of the buddy address

`BUDDY_ADDR(off, k) = off XOR 2^k`.  For the offsets the allocator
produces — always aligned to `2^k` when treated at order `k` — the XOR
toggles exactly the alignment bit: it adds `2^k` when `off` is aligned
to `2^(k+1)` (left half of the parent block) and subtracts `2^k`
otherwise (right half). -/

theorem two_pow_dvd_xor :
    ∀ (k off : Nat), 2 ^ k ∣ off →
      off ^^^ 2 ^ k = if 2 ^ (k + 1) ∣ off then off + 2 ^ k else off - 2 ^ k := by
  intro k
  induction k with
  | zero =>
      intro off _
      have hdiv : (off ^^^ 1) / 2 = off / 2 := by
        rw [Nat.xor_div_two]; norm_num
      have hmod : (off ^^^ 1) % 2 = 1 ↔ ¬ (off % 2 = 1) := by
        simpa using Nat.xor_mod_two_eq_one (a := off) (b := 1)
      have h1 := Nat.div_add_mod (off ^^^ 1) 2
      have h2 := Nat.div_add_mod off 2
      have h3 : (off ^^^ 1) % 2 < 2 := Nat.mod_lt _ (by norm_num)
      rw [hdiv] at h1
      show off ^^^ 1 = if 2 ∣ off then off + 1 else off - 1
      by_cases hpar : off % 2 = 1
      · have h4 : (off ^^^ 1) % 2 ≠ 1 := fun hx => (hmod.mp hx) hpar
        have hcond : ¬ (2 ∣ off) := by omega
        rw [if_neg hcond]; omega
      · have h4 : (off ^^^ 1) % 2 = 1 := hmod.mpr hpar
        have hcond : 2 ∣ off := by omega
        rw [if_pos hcond]; omega
  | succ k ih =>
      intro off h
      obtain ⟨m, hm⟩ := h
      have hA : 0 < 2 ^ k := Nat.pos_pow_of_pos k (by norm_num)
      have hoffB : off = 2 * (2 ^ k * m) := by rw [hm, pow_succ]; ring
      have hoff2 : off / 2 = 2 ^ k * m := by omega
      have hdiv : (off ^^^ 2 ^ (k + 1)) / 2 = (2 ^ k * m) ^^^ 2 ^ k := by
        rw [Nat.xor_div_two, hoff2, pow_succ]
        have : 2 ^ k * 2 / 2 = 2 ^ k := by omega
        rw [this]
      have hmod : (off ^^^ 2 ^ (k + 1)) % 2 = 0 := by
        have heven : off % 2 = 0 := by omega
        have heven2 : 2 ^ (k + 1) % 2 = 0 := by rw [pow_succ]; omega
        have hx := Nat.xor_mod_two_eq_one (a := off) (b := 2 ^ (k + 1))
        have hlt : (off ^^^ 2 ^ (k + 1)) % 2 < 2 := Nat.mod_lt _ (by norm_num)
        omega
      have h1 := Nat.div_add_mod (off ^^^ 2 ^ (k + 1)) 2
      have hih := ih (2 ^ k * m) ⟨m, rfl⟩
      have hiff1 : (2 ^ (k + 1) ∣ 2 ^ k * m) ↔ (2 ∣ m) := by
        rw [pow_succ]
        exact Nat.mul_dvd_mul_iff_left hA
      have hiff2 : (2 ^ (k + 1 + 1) ∣ off) ↔ (2 ∣ m) := by
        rw [pow_succ, hm]
        exact Nat.mul_dvd_mul_iff_left (Nat.pos_pow_of_pos (k + 1) (by norm_num))
      have hpow : (2 : Nat) ^ (k + 1) = 2 * 2 ^ k := by rw [pow_succ]; ring
      by_cases hc : 2 ∣ m
      · have hx2 : (2 ^ k * m) ^^^ 2 ^ k = 2 ^ k * m + 2 ^ k := by
          rw [hih, if_pos (hiff1.mpr hc)]
        rw [if_pos (hiff2.mpr hc)]
        rw [hdiv, hx2] at h1
        omega
      · have hx2 : (2 ^ k * m) ^^^ 2 ^ k = 2 ^ k * m - 2 ^ k := by
          rw [hih, if_neg (fun hd => hc (hiff1.mp hd))]
        have hm1 : 1 ≤ m := by
          rcases Nat.eq_zero_or_pos m with h0 | h0
          · exact absurd (h0 ▸ Nat.dvd_zero 2) hc
          · exact h0
        have hBA : 2 ^ k ≤ 2 ^ k * m := Nat.le_mul_of_pos_right _ hm1
        rw [if_neg (fun hd => hc (hiff2.mp hd))]
        rw [hdiv, hx2] at h1
        omega

/-- Left half: an offset aligned to `2^(k+1)` has its order-`k` buddy
`2^k` bytes above it. -/
theorem BUDDY_ADDR_left {off k : Nat} (h : 2 ^ (k + 1) ∣ off) :
    BUDDY_ADDR off k = off + 2 ^ k := by
  unfold BUDDY_ADDR
  rw [two_pow_dvd_xor k off (dvd_trans (pow_dvd_pow 2 (Nat.le_succ k)) h), if_pos h]

/-- Right half: an offset aligned to `2^k` but not to `2^(k+1)` has its
order-`k` buddy `2^k` bytes below it. -/
theorem BUDDY_ADDR_right {off k : Nat} (h : 2 ^ k ∣ off) (h2 : ¬ 2 ^ (k + 1) ∣ off) :
    BUDDY_ADDR off k = off - 2 ^ k := by
  unfold BUDDY_ADDR
  rw [two_pow_dvd_xor k off h, if_neg h2]

/-! ## List access helpers -/

theorem getD_set_self {α : Type} (l : List α) (n : Nat) (a d : α) (h : n < l.length) :
    (l.set n a).getD n d = a := by
  rw [List.getD_eq_getElem?_getD, List.getElem?_set_self (by simpa using h)]
  rfl

theorem getD_set_ne {α : Type} (l : List α) {m n : Nat} (a : α) (d : α) (h : n ≠ m) :
    (l.set n a).getD m d = l.getD m d := by
  rw [List.getD_eq_getElem?_getD, List.getElem?_set_ne h, ← List.getD_eq_getElem?_getD]

/-! ## Effect of split_page on the state -/

theorem split_page_lenF :
    ∀ (i : Nat) (s : BuddyState) (off order : Nat),
      (split_page s off i order).free_area.length = s.free_area.length := by
  intro i
  induction i with
  | zero => intro s off order; rfl
  | succ i ih =>
      intro s off order
      rw [split_page]
      by_cases h : order < i + 1
      · rw [if_pos h, ih]
        simp
      · rw [if_neg h]

theorem split_page_lenP :
    ∀ (i : Nat) (s : BuddyState) (off order : Nat),
      (split_page s off i order).g_pages_order.length = s.g_pages_order.length := by
  intro i
  induction i with
  | zero => intro s off order; rfl
  | succ i ih =>
      intro s off order
      rw [split_page]
      by_cases h : order < i + 1
      · rw [if_pos h, ih]
        simp
      · rw [if_neg h]

/-- Free lists at or above the current order are untouched by the split. -/
theorem split_page_free_area_high :
    ∀ (i : Nat) (s : BuddyState) (off order j : Nat), i ≤ j →
      (split_page s off i order).free_area.getD j [] = s.free_area.getD j [] := by
  intro i
  induction i with
  | zero => intro s off order j _; rfl
  | succ i ih =>
      intro s off order j hj
      rw [split_page]
      by_cases h : order < i + 1
      · rw [if_pos h, ih _ _ _ _ (by omega)]
        exact getD_set_ne _ _ _ (by omega)
      · rw [if_neg h]

/-- Free lists below the target order are untouched by the split. -/
theorem split_page_free_area_low :
    ∀ (i : Nat) (s : BuddyState) (off order j : Nat), j < order →
      (split_page s off i order).free_area.getD j [] = s.free_area.getD j [] := by
  intro i
  induction i with
  | zero => intro s off order j _; rfl
  | succ i ih =>
      intro s off order j hj
      rw [split_page]
      by_cases h : order < i + 1
      · rw [if_pos h, ih _ _ _ _ hj]
        exact getD_set_ne _ _ _ (by omega)
      · rw [if_neg h]

/-- The scan of `buddy_alloc` skips empty free lists: if every list in
`[i, f)` is empty, scanning from `i` equals scanning from `f`. -/
theorem alloc_scan_skip :
    ∀ (fuel i : Nat) (s : BuddyState) (order f : Nat),
      i + fuel = MAX_ORDER + 1 → i ≤ f → f ≤ MAX_ORDER →
      (∀ j, j < f → i ≤ j → s.free_area.getD j [] = []) →
      alloc_scan s order i fuel = alloc_scan s order f (MAX_ORDER + 1 - f) := by
  intro fuel
  induction fuel with
  | zero => intro i s order f hfuel hif hf _; omega
  | succ fuel ih =>
      intro i s order f hfuel hif hf hemp
      rcases Nat.eq_or_lt_of_le hif with heq | hlt
      · subst heq
        congr 1
        omega
      · rw [alloc_scan, hemp i hlt (le_refl i)]
        exact ih (i + 1) s order f (by omega) (by omega) hf
          (fun j hj hij => hemp j hj (by omega))

/-- One unfolding of the scan at a non-empty list. -/
theorem alloc_scan_cons (s : BuddyState) (order i fuel : Nat) (p : Nat) (rest : List Nat)
    (hl : s.free_area.getD i [] = p :: rest) :
    alloc_scan s order i (fuel + 1) =
      (let s1 : BuddyState := { s with free_area := s.free_area.set i rest }
       if order = i then
         (some (PAGE_TO_ADDR p),
          { s1 with g_pages_order := s1.g_pages_order.set p (order : Int) })
       else
         let s2 := split_page s1 (PAGE_TO_ADDR p) i order
         (some (PAGE_TO_ADDR p),
          { s2 with g_pages_order := s2.g_pages_order.set p (order : Int) })) := by
  rw [alloc_scan, hl]

/-! ## Claim C5: which block buddy_alloc removes

With the spec-modelled list container (insertions append at the back,
so the first node of the model list is the earliest-inserted entry),
`buddy_alloc` pops `list_entry(free_area[s].next, ...)`, the first
node of the first non-empty list at or above the requested order: it
removes the earliest-inserted entry of the supplying free list (FIFO
pop) and leaves exactly the remaining entries there. -/

/-- C5: if the free lists strictly between the requested order `o` and
the supplying order `f` are empty and `free_area[f] = p :: rest`, then
`buddy_alloc` returns the address of `p` — the first node, i.e. the
earliest-inserted (oldest) free block of that size — and the supplying
list becomes `rest`. -/
theorem claim_C5 (s : BuddyState) (size : Int) (o f p : Nat) (rest : List Nat)
    (hlenF : s.free_area.length = MAX_ORDER + 1)
    (ho : get_order size = Int.ofNat o)
    (hof : o ≤ f) (hf : f ≤ MAX_ORDER)
    (hemp : ∀ j, j < f → o ≤ j → s.free_area.getD j [] = [])
    (hl : s.free_area.getD f [] = p :: rest) :
    (buddy_alloc s size).1 = some (PAGE_TO_ADDR p) ∧
    (buddy_alloc s size).2.free_area.getD f [] = rest := by
  have hba : buddy_alloc s size = alloc_scan s o o (MAX_ORDER + 1 - o) := by
    unfold buddy_alloc; rw [ho]
  have hskip := alloc_scan_skip (MAX_ORDER + 1 - o) o s o f (by omega) hof hf hemp
  have hfuel : MAX_ORDER + 1 - f = (MAX_ORDER - f) + 1 := by omega
  rw [hba, hskip, hfuel, alloc_scan_cons s o f (MAX_ORDER - f) p rest hl]
  by_cases hcase : o = f
  · rw [if_pos hcase]
    exact ⟨rfl, getD_set_self _ _ _ _ (by omega)⟩
  · rw [if_neg hcase]
    refine ⟨rfl, ?_⟩
    show (split_page { s with free_area := s.free_area.set f rest }
        (PAGE_TO_ADDR p) f o).free_area.getD f [] = rest
    rw [split_page_free_area_high f _ _ _ f (le_refl f)]
    exact getD_set_self _ _ _ _ (by omega)

/-- C5 witness: the first allocation after `buddy_init` is served from
the order-20 list holding the single whole-arena block. -/
theorem claim_C5_witness :
    (buddy_alloc buddy_init 4096).1 = some (PAGE_TO_ADDR 0) ∧
    (buddy_alloc buddy_init 4096).2.free_area.getD MAX_ORDER [] = [] :=
  claim_C5 buddy_init 4096 MIN_ORDER MAX_ORDER 0 [] (by decide) (by decide)
    (by decide) (by decide) (by decide) (by decide)

/-! ## Page-index arithmetic helpers -/

theorem PAGE_SIZE_pos : 0 < PAGE_SIZE := by decide

theorem ADDR_TO_PAGE_add (a b : Nat) (h : PAGE_SIZE ∣ a) :
    ADDR_TO_PAGE (a + b) = a / PAGE_SIZE + ADDR_TO_PAGE b := by
  obtain ⟨m, rfl⟩ := h
  unfold ADDR_TO_PAGE
  rw [Nat.mul_add_div PAGE_SIZE_pos, Nat.mul_div_cancel_left _ PAGE_SIZE_pos]

theorem pow_div_PAGE_SIZE (j : Nat) (hj : MIN_ORDER ≤ j) :
    2 ^ j / PAGE_SIZE = 2 ^ (j - MIN_ORDER) := by
  have h : (2 : Nat) ^ j = PAGE_SIZE * 2 ^ (j - MIN_ORDER) := by
    show (2 : Nat) ^ j = 2 ^ MIN_ORDER * 2 ^ (j - MIN_ORDER)
    rw [← pow_add]
    congr 1
    omega
  rw [h, Nat.mul_div_cancel_left _ PAGE_SIZE_pos]

/-- The page index of the order-`j` right half of an aligned block. -/
theorem ADDR_TO_PAGE_off_add_pow (off j : Nat) (hj : MIN_ORDER ≤ j)
    (hoff : PAGE_SIZE ∣ off) :
    ADDR_TO_PAGE (off + 2 ^ j) = off / PAGE_SIZE + 2 ^ (j - MIN_ORDER) := by
  rw [ADDR_TO_PAGE_add off (2 ^ j) hoff]
  unfold ADDR_TO_PAGE
  rw [pow_div_PAGE_SIZE j hj]

/-- Distinct right-half page indices for distinct orders. -/
theorem right_half_idx_ne (off j k : Nat) (hj : MIN_ORDER ≤ j) (hk : MIN_ORDER ≤ k)
    (hne : j ≠ k) (hoff : PAGE_SIZE ∣ off) :
    ADDR_TO_PAGE (off + 2 ^ j) ≠ ADDR_TO_PAGE (off + 2 ^ k) := by
  rw [ADDR_TO_PAGE_off_add_pow off j hj hoff, ADDR_TO_PAGE_off_add_pow off k hk hoff]
  intro h
  have h2 : (2 : Nat) ^ (j - MIN_ORDER) = 2 ^ (k - MIN_ORDER) := by omega
  have := Nat.pow_right_injective (le_refl 2) h2
  omega

/-- A right-half page index differs from the base page index. -/
theorem right_half_idx_ne_base (off j : Nat) (hj : MIN_ORDER ≤ j)
    (hoff : PAGE_SIZE ∣ off) :
    ADDR_TO_PAGE (off + 2 ^ j) ≠ ADDR_TO_PAGE off := by
  rw [ADDR_TO_PAGE_off_add_pow off j hj hoff]
  have hpos : 0 < (2 : Nat) ^ (j - MIN_ORDER) := Nat.pos_pow_of_pos _ (by norm_num)
  unfold ADDR_TO_PAGE
  omega

theorem N_PAGES_eq : N_PAGES = 256 := by decide

/-- Characterization of `split_page` when the free lists between the
target and current orders start empty (which is how `buddy_alloc`
always invokes it: the scan found them empty): each order
`j ∈ [order, i)` ends holding exactly the right half
`off + 2^j` (page `ADDR_TO_PAGE (off + 2^j)`), that page descriptor
order is set to `j`, and no other descriptor changes. -/
theorem split_page_char :
    ∀ (i : Nat) (s : BuddyState) (off order : Nat),
      i ≤ MAX_ORDER + 1 →
      s.free_area.length = MAX_ORDER + 1 →
      s.g_pages_order.length = N_PAGES →
      MIN_ORDER ≤ order →
      2 ^ i ∣ off →
      off + 2 ^ i ≤ MEMORY_SIZE →
      (∀ j, j < i → order ≤ j → s.free_area.getD j [] = []) →
      (∀ j, j < i → order ≤ j →
          (split_page s off i order).free_area.getD j [] =
            [ADDR_TO_PAGE (off + 2 ^ j)]) ∧
      (∀ j, j < i → order ≤ j →
          (split_page s off i order).g_pages_order.getD
            (ADDR_TO_PAGE (off + 2 ^ j)) 0 = (j : Int)) ∧
      (∀ q, (∀ j, j < i → order ≤ j → q ≠ ADDR_TO_PAGE (off + 2 ^ j)) →
          (split_page s off i order).g_pages_order.getD q 0 =
            s.g_pages_order.getD q 0) := by
  intro i
  induction i with
  | zero =>
      intro s off order _ _ _ _ _ _ _
      exact ⟨fun j hj _ => by omega, fun j hj _ => by omega, fun q _ => rfl⟩
  | succ i ih =>
      intro s off order hi hlenF hlenP hmin halign hbound hemp
      by_cases hlt : order < i + 1
      · have hBA : BUDDY_ADDR off i = off + 2 ^ i := BUDDY_ADDR_left halign
        have hi12 : MIN_ORDER ≤ i := by omega
        have hPSoff : PAGE_SIZE ∣ off :=
          dvd_trans (pow_dvd_pow 2 (by omega : MIN_ORDER ≤ i + 1)) halign
        have h2ii : (2 : Nat) ^ i < 2 ^ (i + 1) :=
          Nat.pow_lt_pow_right (by norm_num) (by omega)
        have hbIdx_lt : ADDR_TO_PAGE (off + 2 ^ i) < N_PAGES := by
          rw [N_PAGES_eq]
          unfold ADDR_TO_PAGE
          have : off + 2 ^ i < 256 * PAGE_SIZE := by
            have hms : (256 : Nat) * PAGE_SIZE = MEMORY_SIZE := by decide
            omega
          exact Nat.div_lt_of_lt_mul this
        set s1 : BuddyState :=
          { g_pages_order :=
              s.g_pages_order.set (ADDR_TO_PAGE (BUDDY_ADDR off i)) (i : Int)
            free_area :=
              s.free_area.set i ((s.free_area.getD i []) ++
                [ADDR_TO_PAGE (BUDDY_ADDR off i)]) } with hs1
        have hstep : split_page s off (i + 1) order = split_page s1 off i order := by
          rw [split_page, if_pos hlt]
        have hlist_i : s1.free_area.getD i [] = [ADDR_TO_PAGE (off + 2 ^ i)] := by
          rw [hs1]
          show (s.free_area.set i _).getD i [] = _
          rw [getD_set_self _ _ _ _ (by omega), hemp i (by omega) (by omega), hBA]
          rfl
        have hemp1 : ∀ j, j < i → order ≤ j → s1.free_area.getD j [] = [] := by
          intro j hj hoj
          rw [hs1]
          show (s.free_area.set i _).getD j [] = []
          rw [getD_set_ne _ _ _ (by omega)]
          exact hemp j (by omega) hoj
        obtain ⟨ihA, ihC, ihD⟩ :=
          ih s1 off order (by omega)
            (by rw [hs1]; simpa using hlenF)
            (by rw [hs1]; simpa using hlenP)
            hmin
            (dvd_trans (pow_dvd_pow 2 (Nat.le_succ i)) halign)
            (by omega)
            hemp1
        refine ⟨?_, ?_, ?_⟩
        · intro j hj hoj
          rcases Nat.lt_or_ge j i with hji | hji
          · rw [hstep]; exact ihA j hji hoj
          · have hje : j = i := by omega
            subst hje
            rw [hstep, split_page_free_area_high j s1 off order j (le_refl j)]
            exact hlist_i
        · intro j hj hoj
          rcases Nat.lt_or_ge j i with hji | hji
          · rw [hstep]; exact ihC j hji hoj
          · have hje : j = i := by omega
            subst hje
            rw [hstep]
            rw [ihD (ADDR_TO_PAGE (off + 2 ^ j))
              (fun j' hj' hoj' =>
                right_half_idx_ne off j j' (by omega) (by omega) (by omega) hPSoff)]
            rw [hs1]
            show (s.g_pages_order.set (ADDR_TO_PAGE (BUDDY_ADDR off j)) _).getD _ 0 = _
            rw [hBA, getD_set_self _ _ _ _ (by omega)]
        · intro q hq
          rw [hstep, ihD q (fun j hj hoj => hq j (by omega) hoj)]
          rw [hs1]
          show (s.g_pages_order.set (ADDR_TO_PAGE (BUDDY_ADDR off i)) _).getD q 0 = _
          rw [hBA]
          exact getD_set_ne _ _ _
            (fun h => (hq i (by omega) (by omega)) h.symm)
      · have hv : ∀ j, j < i + 1 → order ≤ j → False := by
          intro j hj hoj; omega
        have hsame : split_page s off (i + 1) order = s := by
          rw [split_page, if_neg hlt]
        exact ⟨fun j hj hoj => (hv j hj hoj).elim,
               fun j hj hoj => (hv j hj hoj).elim,
               fun q _ => by rw [hsame]⟩

/-- Bounds on a successful `get_order` result. -/
theorem get_order_loop_bounds :
    ∀ (fuel start : Nat) (x : Int) (o : Nat),
      get_order_loop x start fuel = Int.ofNat o → start ≤ o ∧ o < start + fuel := by
  intro fuel
  induction fuel with
  | zero =>
      intro start x o h
      have h2 : (-1 : Int) = Int.ofNat o := h
      rw [Int.ofNat_eq_coe] at h2
      omega
  | succ fuel ih =>
      intro start x o h
      rw [get_order_loop] at h
      by_cases hc : x ≤ 2 ^ start
      · rw [if_pos hc] at h
        rw [Int.ofNat_eq_coe] at h
        have : start = o := by exact_mod_cast h
        omega
      · rw [if_neg hc] at h
        have := ih (start + 1) x o h
        omega

theorem get_order_bounds {x : Int} {o : Nat} (h : get_order x = Int.ofNat o) :
    MIN_ORDER ≤ o ∧ o ≤ MAX_ORDER := by
  have := get_order_loop_bounds (MAX_ORDER + 1 - MIN_ORDER) MIN_ORDER x o h
  constructor <;> omega

/-! ## Claim C6: split correctness -/

/-- C6: when `buddy_alloc` is served from a supplying order `f`
strictly above the requested order `o` (the lists in `[o, f)` being
empty, which is exactly what makes `f` the supplying order), then
(1) the returned address is the base address of the supplying block
(the left half at every split); (2) for every order `k` in `[o, f)`
the free list ends holding exactly one new block — the right half
`base + 2^k`; (3) that right-half head page descriptor order is set to
`k`; (4) the supplying list loses exactly its popped head; (5) every
other free list is unchanged; (6) the descriptor of the returned block
records `o`; and (7) each added block really is the right (higher)
half: `BUDDY_ADDR(base, k) = base + 2^k`. -/
theorem claim_C6 (s : BuddyState) (size : Int) (o f p : Nat) (rest : List Nat)
    (hlenF : s.free_area.length = MAX_ORDER + 1)
    (hlenP : s.g_pages_order.length = N_PAGES)
    (ho : get_order size = Int.ofNat o)
    (hof : o < f) (hf : f ≤ MAX_ORDER)
    (halign : 2 ^ f ∣ PAGE_TO_ADDR p)
    (hbound : PAGE_TO_ADDR p + 2 ^ f ≤ MEMORY_SIZE)
    (hemp : ∀ j, j < f → o ≤ j → s.free_area.getD j [] = [])
    (hl : s.free_area.getD f [] = p :: rest) :
    (buddy_alloc s size).1 = some (PAGE_TO_ADDR p) ∧
    (∀ k, o ≤ k → k < f →
        (buddy_alloc s size).2.free_area.getD k [] =
          [ADDR_TO_PAGE (PAGE_TO_ADDR p + 2 ^ k)]) ∧
    (∀ k, o ≤ k → k < f →
        (buddy_alloc s size).2.g_pages_order.getD
          (ADDR_TO_PAGE (PAGE_TO_ADDR p + 2 ^ k)) 0 = (k : Int)) ∧
    (buddy_alloc s size).2.free_area.getD f [] = rest ∧
    (∀ k, f < k ∨ k < o →
        (buddy_alloc s size).2.free_area.getD k [] = s.free_area.getD k []) ∧
    (buddy_alloc s size).2.g_pages_order.getD p 0 = (o : Int) ∧
    (∀ k, o ≤ k → k < f →
        BUDDY_ADDR (PAGE_TO_ADDR p) k = PAGE_TO_ADDR p + 2 ^ k) := by
  obtain ⟨hmin, hmax⟩ := get_order_bounds ho
  have hPSoff : PAGE_SIZE ∣ PAGE_TO_ADDR p := dvd_mul_left PAGE_SIZE p
  have hppage : ADDR_TO_PAGE (PAGE_TO_ADDR p) = p := by
    unfold ADDR_TO_PAGE PAGE_TO_ADDR
    exact Nat.mul_div_cancel p PAGE_SIZE_pos
  have hplt : p < N_PAGES := by
    rw [N_PAGES_eq]
    have hps : (0 : Nat) < 2 ^ f := Nat.pos_pow_of_pos _ (by norm_num)
    have h1 : p * 4096 + 2 ^ f ≤ 1048576 := hbound
    by_contra hc
    push_neg at hc
    have h3 : 256 * 4096 ≤ p * 4096 := Nat.mul_le_mul_right _ hc
    omega
  have hbA : BUDDY_ADDR (PAGE_TO_ADDR p) = fun k => PAGE_TO_ADDR p ^^^ 2 ^ k := rfl
  -- expose the execution
  have hba : buddy_alloc s size = alloc_scan s o o (MAX_ORDER + 1 - o) := by
    unfold buddy_alloc; rw [ho]
  have hskip := alloc_scan_skip (MAX_ORDER + 1 - o) o s o f (by omega) (by omega) hf hemp
  have hfuel : MAX_ORDER + 1 - f = (MAX_ORDER - f) + 1 := by omega
  have hne : ¬ (o = f) := by omega
  have hexec : buddy_alloc s size =
      (some (PAGE_TO_ADDR p),
       { split_page { s with free_area := s.free_area.set f rest }
           (PAGE_TO_ADDR p) f o with
         g_pages_order :=
           (split_page { s with free_area := s.free_area.set f rest }
             (PAGE_TO_ADDR p) f o).g_pages_order.set p (o : Int) }) := by
    rw [hba, hskip, hfuel, alloc_scan_cons s o f (MAX_ORDER - f) p rest hl, if_neg hne]
  set s1 : BuddyState := { s with free_area := s.free_area.set f rest } with hs1
  have hemp1 : ∀ j, j < f → o ≤ j → s1.free_area.getD j [] = [] := by
    intro j hj hoj
    rw [hs1]
    show (s.free_area.set f _).getD j [] = []
    rw [getD_set_ne _ _ _ (by omega)]
    exact hemp j hj hoj
  obtain ⟨chA, chC, chD⟩ :=
    split_page_char f s1 (PAGE_TO_ADDR p) o (by omega)
      (by rw [hs1]; simpa using hlenF)
      (by rw [hs1]; simpa using hlenP)
      hmin halign hbound hemp1
  have hright : ∀ k, o ≤ k → k < f →
      BUDDY_ADDR (PAGE_TO_ADDR p) k = PAGE_TO_ADDR p + 2 ^ k := by
    intro k hok hkf
    exact BUDDY_ADDR_left (dvd_trans (pow_dvd_pow 2 (by omega)) halign)
  refine ⟨?_, ?_, ?_, ?_, ?_, ?_, hright⟩
  · rw [hexec]
  · intro k hok hkf
    rw [hexec]
    exact chA k hkf hok
  · intro k hok hkf
    rw [hexec]
    show ((split_page s1 (PAGE_TO_ADDR p) f o).g_pages_order.set p (o : Int)).getD
        (ADDR_TO_PAGE (PAGE_TO_ADDR p + 2 ^ k)) 0 = (k : Int)
    rw [getD_set_ne _ _ _ ?hne1]
    · exact chC k hkf hok
    case hne1 =>
      intro h
      have := right_half_idx_ne_base (PAGE_TO_ADDR p) k (by omega) hPSoff
      rw [hppage] at this
      exact this h.symm
  · rw [hexec]
    show (split_page s1 (PAGE_TO_ADDR p) f o).free_area.getD f [] = rest
    rw [split_page_free_area_high f s1 _ _ f (le_refl f), hs1]
    show (s.free_area.set f rest).getD f [] = rest
    exact getD_set_self _ _ _ _ (by omega)
  · intro k hk
    rw [hexec]
    show (split_page s1 (PAGE_TO_ADDR p) f o).free_area.getD k [] = s.free_area.getD k []
    rcases hk with hk | hk
    · rw [split_page_free_area_high f s1 _ _ k (by omega), hs1]
      show (s.free_area.set f rest).getD k [] = s.free_area.getD k []
      exact getD_set_ne _ _ _ (by omega)
    · rw [split_page_free_area_low f s1 _ _ k hk, hs1]
      show (s.free_area.set f rest).getD k [] = s.free_area.getD k []
      exact getD_set_ne _ _ _ (by omega)
  · rw [hexec]
    show ((split_page s1 (PAGE_TO_ADDR p) f o).g_pages_order.set p (o : Int)).getD p 0 =
      (o : Int)
    refine getD_set_self _ _ _ _ ?_
    rw [split_page_lenP]
    rw [hs1]
    show s.g_pages_order.length > p
    omega

set_option maxRecDepth 4000 in
/-- C6 witness: the first `alloc(4096)` after `buddy_init` splits the
whole-arena block down from order 20 to order 12. -/
theorem claim_C6_witness :
    (buddy_alloc buddy_init 4096).1 = some (PAGE_TO_ADDR 0) ∧
    (buddy_alloc buddy_init 4096).2.free_area.getD 12 [] =
      [ADDR_TO_PAGE (PAGE_TO_ADDR 0 + 2 ^ 12)] ∧
    (buddy_alloc buddy_init 4096).2.free_area.getD 19 [] =
      [ADDR_TO_PAGE (PAGE_TO_ADDR 0 + 2 ^ 19)] ∧
    (buddy_alloc buddy_init 4096).2.g_pages_order.getD
      (ADDR_TO_PAGE (PAGE_TO_ADDR 0 + 2 ^ 12)) 0 = (12 : Int) ∧
    (buddy_alloc buddy_init 4096).2.free_area.getD 20 [] = [] ∧
    (buddy_alloc buddy_init 4096).2.g_pages_order.getD 0 0 = (12 : Int) := by
  have h := claim_C6 buddy_init 4096 12 20 0 [] (by decide) (by decide) (by decide)
    (by decide) (by decide) ⟨0, rfl⟩ (by decide) (by decide) (by decide)
  exact ⟨h.1, h.2.1 12 (by decide) (by decide), h.2.1 19 (by decide) (by decide),
    h.2.2.1 12 (by decide) (by decide), h.2.2.2.1, h.2.2.2.2.2.1⟩

/-! ## Claim C8: alloc failure conditions and atomicity -/

/-- A successful `get_order` result satisfies its guard `1<<order >= x`. -/
theorem get_order_loop_le :
    ∀ (fuel start : Nat) (x : Int) (o : Nat),
      get_order_loop x start fuel = Int.ofNat o → x ≤ 2 ^ o := by
  intro fuel
  induction fuel with
  | zero =>
      intro start x o h
      have h2 : (-1 : Int) = Int.ofNat o := h
      rw [Int.ofNat_eq_coe] at h2
      omega
  | succ fuel ih =>
      intro start x o h
      rw [get_order_loop] at h
      by_cases hc : x ≤ 2 ^ start
      · rw [if_pos hc] at h
        rw [Int.ofNat_eq_coe] at h
        have : start = o := by exact_mod_cast h
        exact this ▸ hc
      · rw [if_neg hc] at h
        exact ih (start + 1) x o h

/-- When some order in range fits, `get_order` succeeds. -/
theorem get_order_loop_some :
    ∀ (fuel start : Nat) (x : Int),
      (∃ k, start ≤ k ∧ k < start + fuel ∧ x ≤ 2 ^ k) →
      ∃ o : Nat, get_order_loop x start fuel = Int.ofNat o := by
  intro fuel
  induction fuel with
  | zero => intro start x ⟨k, h1, h2, _⟩; omega
  | succ fuel ih =>
      intro start x ⟨k, h1, h2, h3⟩
      rw [get_order_loop]
      by_cases hc : x ≤ 2 ^ start
      · exact ⟨start, by rw [if_pos hc, Int.ofNat_eq_coe]⟩
      · rw [if_neg hc]
        have hks : k ≠ start := fun he => hc (he ▸ h3)
        exact ih (start + 1) x ⟨k, by omega, by omega, h3⟩


/-- `get_order` fails exactly on sizes above the whole arena. -/
theorem get_order_fails_iff (x : Int) :
    (∃ n, get_order x = Int.negSucc n) ↔ (2 ^ MAX_ORDER : Int) < x := by
  constructor
  · intro ⟨n, hn⟩
    by_contra hc
    push_neg at hc
    obtain ⟨o, ho⟩ := get_order_loop_some (MAX_ORDER + 1 - MIN_ORDER) MIN_ORDER x
      ⟨MAX_ORDER, by decide, by omega, hc⟩
    rw [get_order] at hn
    rw [ho] at hn
    exact Int.noConfusion hn
  · intro h
    cases hg : get_order x with
    | ofNat o =>
        have h1 := get_order_loop_le (MAX_ORDER + 1 - MIN_ORDER) MIN_ORDER x o hg
        have h2 := get_order_loop_bounds (MAX_ORDER + 1 - MIN_ORDER) MIN_ORDER x o hg
        have h3 : (2 : Int) ^ o ≤ 2 ^ MAX_ORDER :=
          pow_le_pow_right₀ (by norm_num) (by omega)
        omega
    | negSucc n => exact ⟨n, rfl⟩

/-- The scan returns `NULL` exactly when every list in range is empty. -/
theorem alloc_scan_none_iff :
    ∀ (fuel i : Nat) (s : BuddyState) (order : Nat),
      ((alloc_scan s order i fuel).1 = none ↔
        ∀ j, i ≤ j → j < i + fuel → s.free_area.getD j [] = []) := by
  intro fuel
  induction fuel with
  | zero =>
      intro i s order
      exact ⟨fun _ j h1 h2 => by omega, fun _ => rfl⟩
  | succ fuel ih =>
      intro i s order
      rw [alloc_scan]
      cases hl : s.free_area.getD i [] with
      | nil =>
          rw [ih (i + 1) s order]
          constructor
          · intro h j h1 h2
            rcases Nat.eq_or_lt_of_le h1 with he | hlt
            · exact he ▸ hl
            · exact h j hlt (by omega)
          · intro h j h1 h2
            exact h j (by omega) (by omega)
      | cons p rest =>
          constructor
          · intro h
            by_cases hc : order = i <;> simp [hc] at h
          · intro h
            exact absurd (h i (le_refl i) (by omega)) (by rw [hl]; intro hx; cases hx)

/-- A failing scan does not change the state. -/
theorem alloc_scan_none_frame :
    ∀ (fuel i : Nat) (s : BuddyState) (order : Nat),
      (alloc_scan s order i fuel).1 = none → (alloc_scan s order i fuel).2 = s := by
  intro fuel
  induction fuel with
  | zero => intro i s order _; rfl
  | succ fuel ih =>
      intro i s order h
      cases hl : s.free_area.getD i [] with
      | nil =>
          have hstep : alloc_scan s order i (fuel + 1) = alloc_scan s order (i + 1) fuel := by
            rw [alloc_scan, hl]
          rw [hstep] at h ⊢
          exact ih (i + 1) s order h
      | cons p rest =>
          rw [alloc_scan_cons s order i fuel p rest hl] at h
          by_cases hc : order = i <;> simp [hc] at h

/-- C8: `buddy_alloc size` fails (returns `NULL`) if and only if
either the size exceeds `2^MAX_ORDER` (so `get_order` returns `-1`:
SizeTooLarge) or every free list from the requested order up to
`MAX_ORDER` is empty (OutOfMemory); and a failing `buddy_alloc`
leaves the state — every descriptor and every free list — unchanged. -/
theorem claim_C8 (s : BuddyState) (size : Int) :
    ((buddy_alloc s size).1 = none ↔
      ((2 ^ MAX_ORDER : Int) < size ∨
        ∃ o : Nat, get_order size = Int.ofNat o ∧
          ∀ i, o ≤ i → i ≤ MAX_ORDER → s.free_area.getD i [] = [])) ∧
    ((buddy_alloc s size).1 = none → (buddy_alloc s size).2 = s) := by
  cases hg : get_order size with
  | ofNat o =>
      have hexec : buddy_alloc s size = alloc_scan s o o (MAX_ORDER + 1 - o) := by
        unfold buddy_alloc; rw [hg]
      have hbounds := get_order_loop_bounds (MAX_ORDER + 1 - MIN_ORDER) MIN_ORDER size o hg
      have hle := get_order_loop_le (MAX_ORDER + 1 - MIN_ORDER) MIN_ORDER size o hg
      have hnotbig : ¬ ((2 ^ MAX_ORDER : Int) < size) := by
        have h3 : (2 : Int) ^ o ≤ 2 ^ MAX_ORDER :=
          pow_le_pow_right₀ (by norm_num) (by omega)
        omega
      constructor
      · rw [hexec, alloc_scan_none_iff (MAX_ORDER + 1 - o) o s o]
        constructor
        · intro h
          exact Or.inr ⟨o, rfl, fun i h1 h2 => h i h1 (by omega)⟩
        · intro h
          rcases h with h | ⟨o2, ho2, h⟩
          · exact absurd h hnotbig
          · have ho2e : o = o2 := Int.ofNat.inj ho2
            subst ho2e
            exact fun j h1 h2 => h j h1 (by omega)
      · intro h
        rw [hexec] at h ⊢
        exact alloc_scan_none_frame (MAX_ORDER + 1 - o) o s o h
  | negSucc n =>
      have hexec : buddy_alloc s size = (none, s) := by
        unfold buddy_alloc; rw [hg]
      have hbig : (2 ^ MAX_ORDER : Int) < size :=
        (get_order_fails_iff size).mp ⟨n, by rw [hg]⟩
      rw [hexec]
      exact ⟨⟨fun _ => Or.inl hbig, fun _ => rfl⟩, fun _ => rfl⟩

/-- C8 witness: a request one byte above the arena size fails, and a
request of the arena size on an allocator whose lists were emptied by
taking the whole arena fails too, both leaving the state unchanged. -/
theorem claim_C8_witness :
    ((buddy_alloc buddy_init 1048577).1 = none ↔
      ((2 ^ MAX_ORDER : Int) < 1048577 ∨
        ∃ o : Nat, get_order 1048577 = Int.ofNat o ∧
          ∀ i, o ≤ i → i ≤ MAX_ORDER → buddy_init.free_area.getD i [] = [])) ∧
    ((buddy_alloc buddy_init 1048577).1 = none →
      (buddy_alloc buddy_init 1048577).2 = buddy_init) :=
  claim_C8 buddy_init 1048577

/-! ## Basic facts about blocks and coverage -/

theorem ATP_lt_N_PAGES {off : Nat} (h : off < MEMORY_SIZE) :
    ADDR_TO_PAGE off < N_PAGES := by
  rw [N_PAGES_eq]
  unfold ADDR_TO_PAGE
  have hm : off < 256 * PAGE_SIZE := by
    have : (256 : Nat) * PAGE_SIZE = MEMORY_SIZE := by decide
    omega
  exact Nat.div_lt_of_lt_mul hm

theorem PAGE_TO_ADDR_ATP {off : Nat} (h : PAGE_SIZE ∣ off) :
    PAGE_TO_ADDR (ADDR_TO_PAGE off) = off := by
  obtain ⟨m, rfl⟩ := h
  unfold PAGE_TO_ADDR ADDR_TO_PAGE
  rw [Nat.mul_div_cancel_left _ PAGE_SIZE_pos, mul_comm]

theorem ATP_PAGE_TO_ADDR (p : Nat) : ADDR_TO_PAGE (PAGE_TO_ADDR p) = p := by
  unfold PAGE_TO_ADDR ADDR_TO_PAGE
  exact Nat.mul_div_cancel p PAGE_SIZE_pos

theorem GoodBlock_PS_dvd {b : Nat × Nat} (h : GoodBlock b) : PAGE_SIZE ∣ b.1 :=
  dvd_trans (pow_dvd_pow 2 h.1) h.2.2.1

/-- Every block covers its own base address. -/
theorem coversb_base (b : Nat × Nat) : coversb b.1 b = true := by
  unfold coversb
  simp

/-- Splitting one interval of order `k+1` into its two halves
preserves pointwise coverage counts. -/
theorem coversb_split (off k a : Nat) :
    (if coversb a (off, k + 1) then 1 else 0) =
      ((if coversb a (off, k) then 1 else 0) +
       (if coversb a (off + 2 ^ k, k) then 1 else 0)) := by
  unfold coversb
  have h2 : (2 : Nat) ^ (k + 1) = 2 ^ k + 2 ^ k := by rw [pow_succ]; omega
  simp only [decide_eq_true_eq]
  split_ifs <;> omega

/-! ## The free-block view: membership and counting -/

theorem freeBlocksAux_congr :
    ∀ (n : Nat) (s1 s2 : BuddyState),
      (∀ j, j < n → s1.free_area.getD j [] = s2.free_area.getD j []) →
      freeBlocksAux s1 n = freeBlocksAux s2 n := by
  intro n
  induction n with
  | zero => intro s1 s2 _; rfl
  | succ n ih =>
      intro s1 s2 h
      rw [freeBlocksAux, freeBlocksAux, ih s1 s2 (fun j hj => h j (by omega)),
        h n (by omega)]

theorem freeBlocksAux_mem :
    ∀ (n : Nat) (s : BuddyState) (b : Nat × Nat),
      (b ∈ freeBlocksAux s n ↔
        ∃ o, o < n ∧ ∃ q, q ∈ s.free_area.getD o [] ∧ b = (PAGE_TO_ADDR q, o)) := by
  intro n
  induction n with
  | zero =>
      intro s b
      constructor
      · intro h; cases h
      · intro ⟨o, ho, _⟩; omega
  | succ n ih =>
      intro s b
      rw [freeBlocksAux, List.mem_append, ih s b]
      constructor
      · intro h
        rcases h with ⟨o, ho, q, hq, hb⟩ | h
        · exact ⟨o, by omega, q, hq, hb⟩
        · obtain ⟨q, hq, hb⟩ := List.mem_map.mp h
          exact ⟨n, by omega, q, hq, hb.symm⟩
      · intro ⟨o, ho, q, hq, hb⟩
        rcases Nat.lt_or_ge o n with h1 | h1
        · exact Or.inl ⟨o, h1, q, hq, hb⟩
        · have : o = n := by omega
          subst this
          exact Or.inr (List.mem_map.mpr ⟨q, hq, hb.symm⟩)

theorem freeBlocks_mem (s : BuddyState) (b : Nat × Nat) :
    b ∈ freeBlocks s ↔
      ∃ o, o ≤ MAX_ORDER ∧ ∃ q, q ∈ s.free_area.getD o [] ∧ b = (PAGE_TO_ADDR q, o) := by
  rw [freeBlocks, freeBlocksAux_mem]
  constructor
  · intro ⟨o, ho, hrest⟩; exact ⟨o, by omega, hrest⟩
  · intro ⟨o, ho, hrest⟩; exact ⟨o, by omega, hrest⟩

/-- Replacing the list at one order changes the free-block count by
exactly the difference contributed by that order. -/
theorem countP_freeBlocksAux_set :
    ∀ (n : Nat) (s s1 : BuddyState) (o : Nat) (l : List Nat) (g : Nat × Nat → Bool),
      s1.free_area = s.free_area.set o l →
      o < s.free_area.length →
      o < n →
      (freeBlocksAux s1 n).countP g +
          ((s.free_area.getD o []).map (fun q => (PAGE_TO_ADDR q, o))).countP g =
        (freeBlocksAux s n).countP g +
          (l.map (fun q => (PAGE_TO_ADDR q, o))).countP g := by
  intro n
  induction n with
  | zero => intro s s1 o l g _ _ h; omega
  | succ n ih =>
      intro s s1 o l g hf hlen hon
      have hgetD_set_self : s1.free_area.getD o [] = l := by
        rw [hf]; exact getD_set_self _ _ _ _ hlen
      have hgetD_ne : ∀ j, j ≠ o → s1.free_area.getD j [] = s.free_area.getD j [] := by
        intro j hj
        rw [hf]; exact getD_set_ne _ _ _ (fun h => hj h.symm)
      rcases Nat.lt_or_ge o n with h1 | h1
      · -- the changed order is below n : recurse
        rw [freeBlocksAux, freeBlocksAux, List.countP_append, List.countP_append,
          hgetD_ne n (by omega)]
        have := ih s s1 o l g hf hlen h1
        omega
      · -- o = n : the changed order is the new top slice
        have ho : o = n := by omega
        subst ho
        rw [freeBlocksAux, freeBlocksAux, List.countP_append, List.countP_append,
          hgetD_set_self,
          freeBlocksAux_congr o s1 s (fun j hj => hgetD_ne j (by omega))]
        omega

/-! ## Multiset bookkeeping for the in-flight list -/

theorem countP_two {α : Type} [DecidableEq α] (l : List α) (p : α → Bool)
    (b1 b2 : α) (h1 : b1 ∈ l) (h2 : b2 ∈ l) (hne : b1 ≠ b2)
    (hp1 : p b1 = true) (hp2 : p b2 = true) : 2 ≤ l.countP p := by
  have hperm := List.perm_cons_erase h1
  have h2e : b2 ∈ l.erase b1 := (List.mem_erase_of_ne hne.symm).mpr h2
  have hpos : 0 < (l.erase b1).countP p :=
    List.countP_pos_iff.mpr ⟨b2, h2e, hp2⟩
  have := hperm.countP_eq p
  rw [List.countP_cons_of_pos _ _ hp1] at this
  omega

theorem eraseP_perm_of_unique {α : Type} :
    ∀ (l : List α) (p : α → Bool) (b : α), b ∈ l → p b = true →
      (∀ x ∈ l, p x = true → x = b) → l.Perm (b :: l.eraseP p) := by
  intro l
  induction l with
  | nil => intro p b hb; cases hb
  | cons a t ih =>
      intro p b hb hpb huniq
      by_cases hpa : p a = true
      · have hab : a = b := huniq a (List.mem_cons_self a t) hpa
        subst hab
        rw [List.eraseP_cons_of_pos hpa]
      · rw [List.eraseP_cons_of_neg (by simpa using hpa)]
        have hbt : b ∈ t := by
          rcases List.mem_cons.mp hb with he | ht
          · exact absurd (he ▸ hpb) hpa
          · exact ht
        have hih := ih p b hbt hpb (fun x hx hpx => huniq x (List.mem_cons_of_mem a hx) hpx)
        exact List.Perm.trans (hih.cons a) (List.Perm.swap b a (t.eraseP p))

theorem countP_freeBlocks_set (s s1 : BuddyState) (o : Nat) (l : List Nat)
    (g : Nat × Nat → Bool)
    (hf : s1.free_area = s.free_area.set o l)
    (hlen : o < s.free_area.length) (ho : o < MAX_ORDER + 1) :
    (freeBlocks s1).countP g +
        ((s.free_area.getD o []).map (fun q => (PAGE_TO_ADDR q, o))).countP g =
      (freeBlocks s).countP g + (l.map (fun q => (PAGE_TO_ADDR q, o))).countP g :=
  countP_freeBlocksAux_set (MAX_ORDER + 1) s s1 o l g hf hlen ho

/-- Splitting preserves pointwise coverage: the final configuration
covers each address exactly as often as before, once the allocated
left half `(off, order)` is counted in place of the original block
`(off, i)`. -/
theorem split_tiling :
    ∀ (i : Nat) (s : BuddyState) (off order a : Nat),
      MIN_ORDER ≤ order → order ≤ i → i ≤ MAX_ORDER + 1 →
      s.free_area.length = MAX_ORDER + 1 →
      2 ^ i ∣ off →
      (freeBlocks (split_page s off i order)).countP (coversb a) +
          (if coversb a (off, order) then 1 else 0) =
        (freeBlocks s).countP (coversb a) +
          (if coversb a (off, i) then 1 else 0) := by
  intro i
  induction i with
  | zero =>
      intro s off order a hmin hoi _ _ _
      have : order = 0 := by omega
      subst this
      rfl
  | succ i ih =>
      intro s off order a hmin hoi hi hlenF halign
      by_cases hlt : order < i + 1
      · have hBA : BUDDY_ADDR off i = off + 2 ^ i := BUDDY_ADDR_left halign
        set s1 : BuddyState :=
          { g_pages_order :=
              s.g_pages_order.set (ADDR_TO_PAGE (BUDDY_ADDR off i)) (i : Int)
            free_area :=
              s.free_area.set i ((s.free_area.getD i []) ++
                [ADDR_TO_PAGE (BUDDY_ADDR off i)]) } with hs1
        have hstep : split_page s off (i + 1) order = split_page s1 off i order := by
          rw [split_page, if_pos hlt]
        have hPS2i : PAGE_SIZE ∣ off + 2 ^ i := by
          refine dvd_add ?_ ?_
          · exact dvd_trans (pow_dvd_pow 2 (by omega : MIN_ORDER ≤ i + 1)) halign
          · exact pow_dvd_pow 2 (by omega : MIN_ORDER ≤ i)
        have hPTA : PAGE_TO_ADDR (ADDR_TO_PAGE (BUDDY_ADDR off i)) = off + 2 ^ i := by
          rw [hBA]
          exact PAGE_TO_ADDR_ATP hPS2i
        have hsurg := countP_freeBlocks_set s s1 i
          ((s.free_area.getD i []) ++ [ADDR_TO_PAGE (BUDDY_ADDR off i)])
          (coversb a) (by rw [hs1]) (by omega) (by omega)
        rw [List.map_append, List.countP_append] at hsurg
        have hone : ([ADDR_TO_PAGE (BUDDY_ADDR off i)].map
            (fun q => (PAGE_TO_ADDR q, i))).countP (coversb a) =
            if coversb a (off + 2 ^ i, i) then 1 else 0 := by
          simp only [List.map_cons, List.map_nil, List.countP_cons, List.countP_nil, hPTA]
          omega
        rw [hone] at hsurg
        have hih := ih s1 off order a hmin (by omega) (by omega)
          (by rw [hs1]; simpa using hlenF)
          (dvd_trans (pow_dvd_pow 2 (Nat.le_succ i)) halign)
        have hsplit := coversb_split off i a
        rw [hstep]
        show (freeBlocks (split_page s1 off i order)).countP (coversb a) +
            (if coversb a (off, order) then 1 else 0) =
          (freeBlocks s).countP (coversb a) +
            (if coversb a (off, i + 1) then 1 else 0)
        omega
      · have hoe : order = i + 1 := by omega
        subst hoe
        have hsame : split_page s off (i + 1) (i + 1) = s := by
          rw [split_page, if_neg (by omega)]
        rw [hsame]

/-- Structure of a successful scan: there is a supplying order `f` —
the first non-empty list at or above the start — whose head is popped;
the result state is the popped-and-marked state (exact fit) or the
popped, split and marked state. -/
theorem alloc_scan_some :
    ∀ (fuel i : Nat) (s : BuddyState) (order off : Nat) (s1 : BuddyState),
      alloc_scan s order i fuel = (some off, s1) →
      ∃ f p rest, i ≤ f ∧ f < i + fuel ∧
        (∀ j, i ≤ j → j < f → s.free_area.getD j [] = []) ∧
        s.free_area.getD f [] = p :: rest ∧
        off = PAGE_TO_ADDR p ∧
        ((order = f ∧
          s1 = { g_pages_order := s.g_pages_order.set p (order : Int)
                 free_area := s.free_area.set f rest }) ∨
         (order ≠ f ∧
          s1 = { g_pages_order :=
                   (split_page { s with free_area := s.free_area.set f rest }
                     (PAGE_TO_ADDR p) f order).g_pages_order.set p (order : Int)
                 free_area :=
                   (split_page { s with free_area := s.free_area.set f rest }
                     (PAGE_TO_ADDR p) f order).free_area })) := by
  intro fuel
  induction fuel with
  | zero =>
      intro i s order off s1 h
      exact absurd (congrArg Prod.fst h) (by intro hx; cases hx)
  | succ fuel ih =>
      intro i s order off s1 h
      cases hl : s.free_area.getD i [] with
      | nil =>
          have hstep : alloc_scan s order i (fuel + 1) = alloc_scan s order (i + 1) fuel := by
            rw [alloc_scan, hl]
          rw [hstep] at h
          obtain ⟨f, p, rest, h1, h2, h3, h4, h5, h6⟩ := ih (i + 1) s order off s1 h
          refine ⟨f, p, rest, by omega, by omega, ?_, h4, h5, h6⟩
          intro j hj1 hj2
          rcases Nat.eq_or_lt_of_le hj1 with he | hlt
          · exact he ▸ hl
          · exact h3 j hlt hj2
      | cons p rest =>
          rw [alloc_scan_cons s order i fuel p rest hl] at h
          by_cases hc : order = i
          · rw [if_pos hc] at h
            have hoff : off = PAGE_TO_ADDR p := by
              have := congrArg Prod.fst h
              simpa using this.symm
            have hs1 := congrArg Prod.snd h
            refine ⟨i, p, rest, le_refl i, by omega, by omega, hl, hoff, Or.inl ⟨hc, ?_⟩⟩
            subst hc
            exact hs1.symm
          · rw [if_neg hc] at h
            have hoff : off = PAGE_TO_ADDR p := by
              have := congrArg Prod.fst h
              simpa using this.symm
            have hs1 := congrArg Prod.snd h
            exact ⟨i, p, rest, le_refl i, by omega, by omega, hl, hoff,
              Or.inr ⟨hc, hs1.symm⟩⟩

/-- Two blocks of a configuration that tiles exactly cannot both cover
the same address. -/
theorem tiling_disjoint (al fbs : List (Nat × Nat)) (a : Nat)
    (h : (al ++ fbs).countP (coversb a) = 1)
    (b1 b2 : Nat × Nat) (h1 : b1 ∈ al) (h2 : b2 ∈ fbs)
    (hc1 : coversb a b1 = true) (hc2 : coversb a b2 = true) : False := by
  rw [List.countP_append] at h
  have p1 : 0 < al.countP (coversb a) := List.countP_pos_iff.mpr ⟨b1, h1, hc1⟩
  have p2 : 0 < fbs.countP (coversb a) := List.countP_pos_iff.mpr ⟨b2, h2, hc2⟩
  omega

theorem coversb_of_range {a off k : Nat} (h1 : off ≤ a) (h2 : a < off + 2 ^ k) :
    coversb a (off, k) = true := by
  unfold coversb
  simp only [decide_eq_true_eq]
  exact ⟨h1, h2⟩

/-- A successful `buddy_alloc` preserves the allocator invariant, with
the returned block — of the requested order — joining the in-flight
list. -/
theorem buddy_alloc_spec (s : BuddyState) (al : List (Nat × Nat)) (size : Int)
    (off : Nat) (s1 : BuddyState)
    (hInv : BuddyInv s al)
    (h : buddy_alloc s size = (some off, s1)) :
    ∃ o : Nat, get_order size = Int.ofNat o ∧ GoodBlock (off, o) ∧
      BuddyInv s1 ((off, o) :: al) := by
  cases hg : get_order size with
  | negSucc n =>
      have hx : buddy_alloc s size = (none, s) := by unfold buddy_alloc; rw [hg]
      rw [hx] at h
      exact absurd (congrArg Prod.fst h) (by simp)
  | ofNat o =>
      have hbounds := get_order_loop_bounds (MAX_ORDER + 1 - MIN_ORDER) MIN_ORDER size o hg
      have hexec : alloc_scan s o o (MAX_ORDER + 1 - o) = (some off, s1) := by
        unfold buddy_alloc at h; rw [hg] at h; exact h
      obtain ⟨f, p, rest, hof, hff, hemp, hl, hoffp, hcase⟩ :=
        alloc_scan_some (MAX_ORDER + 1 - o) o s o off s1 hexec
      subst hoffp
      have hf20 : f ≤ MAX_ORDER := by omega
      have hpmem : p ∈ s.free_area.getD f [] := by rw [hl]; exact List.mem_cons_self _ _
      have hpopped_mem : (PAGE_TO_ADDR p, f) ∈ freeBlocks s :=
        (freeBlocks_mem s _).mpr ⟨f, hf20, p, hpmem, rfl⟩
      have hgoodp : GoodBlock (PAGE_TO_ADDR p, f) :=
        hInv.good _ (List.mem_append_right _ hpopped_mem)
      have halignf : 2 ^ f ∣ PAGE_TO_ADDR p := hgoodp.2.2.1
      have hboundf : PAGE_TO_ADDR p + 2 ^ f ≤ MEMORY_SIZE := hgoodp.2.2.2
      have hfpos : (0 : Nat) < 2 ^ f := Nat.pos_pow_of_pos _ (by norm_num)
      have hofflt : PAGE_TO_ADDR p < MEMORY_SIZE := by omega
      have hplt : p < N_PAGES := by
        have := ATP_lt_N_PAGES hofflt
        rwa [ATP_PAGE_TO_ADDR] at this
      have hpowof : (2 : Nat) ^ o ≤ 2 ^ f := Nat.pow_le_pow_right (by norm_num) hof
      have hgoodnew : GoodBlock (PAGE_TO_ADDR p, o) :=
        ⟨by show MIN_ORDER ≤ o; omega, by show o ≤ MAX_ORDER; omega,
         dvd_trans (pow_dvd_pow 2 hof) halignf,
         by show PAGE_TO_ADDR p + 2 ^ o ≤ MEMORY_SIZE; omega⟩
      have hfresh : ∀ a, PAGE_TO_ADDR p ≤ a → a < PAGE_TO_ADDR p + 2 ^ f →
          ∀ b ∈ al, coversb a b = true → False := by
        intro a h1 h2 b hb hc
        exact tiling_disjoint al (freeBlocks s) a (hInv.tiling a (by omega)) b _
          hb hpopped_mem hc (coversb_of_range h1 h2)
      have hal_ne : ∀ b ∈ al, ADDR_TO_PAGE b.1 ≠ p := by
        intro b hb heq
        have hb_good := hInv.good b (List.mem_append_left _ hb)
        have hb1 : b.1 = PAGE_TO_ADDR p := by
          rw [← PAGE_TO_ADDR_ATP (GoodBlock_PS_dvd hb_good), heq]
        exact hfresh b.1 (le_of_eq hb1.symm) (by omega) b hb (coversb_base b)
      refine ⟨o, rfl, hgoodnew, ?_⟩
      rcases hcase with ⟨hoef, hs1⟩ | ⟨honef, hs1⟩
      · -- exact fit : o = f
        subst hoef
        subst hs1
        set sE : BuddyState :=
          { g_pages_order := s.g_pages_order.set p (o : Int)
            free_area := s.free_area.set o rest } with hsE
        have hfaE : sE.free_area = s.free_area.set o rest := rfl
        have hgEeq : sE.g_pages_order = s.g_pages_order.set p (o : Int) := rfl
        have hgetD_self : sE.free_area.getD o [] = rest := by
          rw [hfaE]; exact getD_set_self _ _ _ _ (by rw [hInv.lenF]; omega)
        have hgetD_ne : ∀ j, j ≠ o → sE.free_area.getD j [] = s.free_area.getD j [] := by
          intro j hj
          rw [hfaE]; exact getD_set_ne _ _ _ (fun hx => hj hx.symm)
        refine ⟨by rw [hgEeq]; simpa using hInv.lenP,
                by rw [hfaE]; simpa using hInv.lenF, ?_, ?_, ?_⟩
        · -- tiling
          intro a ha
          have hsurg := countP_freeBlocks_set s sE o rest (coversb a) hfaE
            (by rw [hInv.lenF]; omega) (by omega)
          rw [hl, List.map_cons, List.countP_cons] at hsurg
          have htil := hInv.tiling a ha
          rw [List.countP_append] at htil
          rw [List.cons_append, List.countP_cons, List.countP_append]
          omega
        · -- goodness
          intro b hb
          rcases List.mem_append.mp hb with hb1 | hb2
          · rcases List.mem_cons.mp hb1 with he | hal
            · exact he ▸ hgoodnew
            · exact hInv.good b (List.mem_append_left _ hal)
          · obtain ⟨o2, ho2, q, hq, hbe⟩ := (freeBlocks_mem _ b).mp hb2
            by_cases hof2 : o2 = o
            · subst hof2
              rw [hgetD_self] at hq
              exact hInv.good b (List.mem_append_right _
                ((freeBlocks_mem s b).mpr ⟨o2, ho2, q,
                  by rw [hl]; exact List.mem_cons_of_mem _ hq, hbe⟩))
            · rw [hgetD_ne o2 hof2] at hq
              exact hInv.good b (List.mem_append_right _
                ((freeBlocks_mem s b).mpr ⟨o2, ho2, q, hq, hbe⟩))
        · -- recorded orders
          intro b hb
          rcases List.mem_cons.mp hb with he | hal
          · subst he
            show sE.g_pages_order.getD (ADDR_TO_PAGE (PAGE_TO_ADDR p)) 0 = _
            rw [hgEeq, ATP_PAGE_TO_ADDR]
            exact getD_set_self _ _ _ _ (by rw [hInv.lenP]; omega)
          · show sE.g_pages_order.getD (ADDR_TO_PAGE b.1) 0 = (b.2 : Int)
            rw [hgEeq, getD_set_ne _ _ _ (fun hx => hal_ne b hal hx.symm)]
            exact hInv.allocOrder b hal
      · -- split : o < f
        have hoflt : o < f := by omega
        set s1' : BuddyState :=
          { g_pages_order := s.g_pages_order, free_area := s.free_area.set f rest }
          with hs1'
        have hfa1 : s1'.free_area = s.free_area.set f rest := rfl
        have hg1 : s1'.g_pages_order = s.g_pages_order := rfl
        have hemp1 : ∀ j, j < f → o ≤ j → s1'.free_area.getD j [] = [] := by
          intro j hj hoj
          rw [hfa1, getD_set_ne _ _ _ (by omega)]
          exact hemp j hoj hj
        have hlen1F : s1'.free_area.length = MAX_ORDER + 1 := by
          rw [hfa1]; simpa using hInv.lenF
        have hlen1P : s1'.g_pages_order.length = N_PAGES := hInv.lenP
        obtain ⟨chA, chC, chD⟩ := split_page_char f s1' (PAGE_TO_ADDR p) o (by omega)
          hlen1F hlen1P (by omega) halignf hboundf hemp1
        set s2 := split_page s1' (PAGE_TO_ADDR p) f o with hs2
        subst hs1
        have hPSoff : PAGE_SIZE ∣ PAGE_TO_ADDR p := dvd_mul_left PAGE_SIZE p
        set sE : BuddyState :=
          { g_pages_order := s2.g_pages_order.set p (o : Int)
            free_area := s2.free_area } with hsE
        have hfb12 : freeBlocks sE = freeBlocks s2 :=
          freeBlocksAux_congr (MAX_ORDER + 1) sE s2 (fun j _ => rfl)
        have hlen2F : s2.free_area.length = MAX_ORDER + 1 := by
          rw [hs2, split_page_lenF]; exact hlen1F
        have hlen2P : s2.g_pages_order.length = N_PAGES := by
          rw [hs2, split_page_lenP]; exact hlen1P
        have hgetD1_self : s1'.free_area.getD f [] = rest := by
          rw [hfa1]; exact getD_set_self _ _ _ _ (by rw [hInv.lenF]; omega)
        have hgetD1_ne : ∀ j, j ≠ f → s1'.free_area.getD j [] = s.free_area.getD j [] := by
          intro j hj
          rw [hfa1]; exact getD_set_ne _ _ _ (fun hx => hj hx.symm)
        refine ⟨by show (s2.g_pages_order.set p (o : Int)).length = N_PAGES;
                    simpa using hlen2P,
                by show s2.free_area.length = MAX_ORDER + 1; exact hlen2F, ?_, ?_, ?_⟩
        · -- tiling
          intro a ha
          have hsurg := countP_freeBlocks_set s s1' f rest (coversb a) hfa1
            (by rw [hInv.lenF]; omega) (by omega)
          rw [hl, List.map_cons, List.countP_cons] at hsurg
          have htile := split_tiling f s1' (PAGE_TO_ADDR p) o a (by omega) (by omega)
            (by omega) hlen1F halignf
          rw [← hs2] at htile
          have htil := hInv.tiling a ha
          rw [List.countP_append] at htil
          rw [List.cons_append, List.countP_cons, List.countP_append, hfb12]
          omega
        · -- goodness
          intro b hb
          rcases List.mem_append.mp hb with hb1 | hb2
          · rcases List.mem_cons.mp hb1 with he | hal
            · exact he ▸ hgoodnew
            · exact hInv.good b (List.mem_append_left _ hal)
          · rw [hfb12] at hb2
            obtain ⟨o2, ho2, q, hq, hbe⟩ := (freeBlocks_mem _ b).mp hb2
            rcases Nat.lt_or_ge o2 o with hcase2 | hcase2
            · rw [hs2, split_page_free_area_low f s1' _ _ o2 hcase2,
                hgetD1_ne o2 (by omega)] at hq
              exact hInv.good b (List.mem_append_right _
                ((freeBlocks_mem s b).mpr ⟨o2, ho2, q, hq, hbe⟩))
            · rcases Nat.lt_or_ge o2 f with hcase3 | hcase3
              · rw [chA o2 hcase3 hcase2] at hq
                have hqe : q = ADDR_TO_PAGE (PAGE_TO_ADDR p + 2 ^ o2) := by
                  simpa using hq
                subst hqe
                have hPS2 : PAGE_SIZE ∣ PAGE_TO_ADDR p + 2 ^ o2 :=
                  dvd_add hPSoff (pow_dvd_pow 2 (by omega))
                rw [PAGE_TO_ADDR_ATP hPS2] at hbe
                subst hbe
                have hpow2 : (2 : Nat) ^ (o2 + 1) ≤ 2 ^ f :=
                  Nat.pow_le_pow_right (by norm_num) (by omega)
                have hpows : (2 : Nat) ^ (o2 + 1) = 2 ^ o2 + 2 ^ o2 := by
                  rw [pow_succ]; omega
                exact ⟨by show MIN_ORDER ≤ o2; omega, by show o2 ≤ MAX_ORDER; omega,
                  dvd_add (dvd_trans (pow_dvd_pow 2 (by omega)) halignf) dvd_rfl,
                  by show PAGE_TO_ADDR p + 2 ^ o2 + 2 ^ o2 ≤ MEMORY_SIZE; omega⟩
              · rw [hs2, split_page_free_area_high f s1' _ _ o2 hcase3] at hq
                by_cases hof2 : o2 = f
                · subst hof2
                  rw [hgetD1_self] at hq
                  exact hInv.good b (List.mem_append_right _
                    ((freeBlocks_mem s b).mpr ⟨o2, ho2, q,
                      by rw [hl]; exact List.mem_cons_of_mem _ hq, hbe⟩))
                · rw [hgetD1_ne o2 hof2] at hq
                  exact hInv.good b (List.mem_append_right _
                    ((freeBlocks_mem s b).mpr ⟨o2, ho2, q, hq, hbe⟩))
        · -- recorded orders
          intro b hb
          rcases List.mem_cons.mp hb with he | hal
          · subst he
            show (s2.g_pages_order.set p (o : Int)).getD (ADDR_TO_PAGE (PAGE_TO_ADDR p)) 0 = _
            rw [ATP_PAGE_TO_ADDR]
            exact getD_set_self _ _ _ _ (by rw [hlen2P]; omega)
          · show (s2.g_pages_order.set p (o : Int)).getD (ADDR_TO_PAGE b.1) 0 = (b.2 : Int)
            rw [getD_set_ne _ _ _ (fun hx => hal_ne b hal hx.symm)]
            have havoid : ∀ j, j < f → o ≤ j →
                ADDR_TO_PAGE b.1 ≠ ADDR_TO_PAGE (PAGE_TO_ADDR p + 2 ^ j) := by
              intro j hjf hoj heq
              have hb_good := hInv.good b (List.mem_append_left _ hal)
              have hPS2 : PAGE_SIZE ∣ PAGE_TO_ADDR p + 2 ^ j :=
                dvd_add hPSoff (pow_dvd_pow 2 (by omega))
              have hb1 : b.1 = PAGE_TO_ADDR p + 2 ^ j := by
                rw [← PAGE_TO_ADDR_ATP (GoodBlock_PS_dvd hb_good), heq,
                  PAGE_TO_ADDR_ATP hPS2]
              have hpowlt : (2 : Nat) ^ j < 2 ^ f :=
                Nat.pow_lt_pow_right (by norm_num) (by omega)
              have hj0 : (0 : Nat) < 2 ^ j := Nat.pos_pow_of_pos _ (by norm_num)
              exact hfresh (PAGE_TO_ADDR p + 2 ^ j) (by omega) (by omega) b hal
                (hb1 ▸ coversb_base b)
            rw [hs2, chD (ADDR_TO_PAGE b.1) havoid, hg1]
            exact hInv.allocOrder b hal

/-! ## Stepping lemmas for the coalescing loop -/

/-- The stop branch: `temp` does not point at the buddy descriptor, so
the block is filed at the current order with its descriptor cleared. -/
theorem buddy_free_loop_stop (s : BuddyState) (cur_off index : Nat) (temp : Option Nat)
    (i fuel : Nat)
    (h : (match s.free_area.getD i [] with | [] => temp | q :: _ => some q) ≠
      some (ADDR_TO_PAGE (BUDDY_ADDR cur_off i))) :
    buddy_free_loop s cur_off index temp i (fuel + 1) =
      some { g_pages_order := s.g_pages_order.set index (-1)
             free_area := s.free_area.set i ((s.free_area.getD i []) ++ [index]) } := by
  rw [buddy_free_loop]
  simp only []
  rw [if_neg h]

/-- The merge branch: the first node of the current list is the buddy,
which is removed; the loop continues one order up from the lower of the
two halves. -/
theorem buddy_free_loop_merge (s : BuddyState) (cur_off index : Nat) (temp : Option Nat)
    (i fuel q : Nat) (rest : List Nat)
    (hlist : s.free_area.getD i [] = q :: rest)
    (hq : q = ADDR_TO_PAGE (BUDDY_ADDR cur_off i))
    (hlt : ADDR_TO_PAGE (BUDDY_ADDR cur_off i) < N_PAGES) :
    buddy_free_loop s cur_off index temp i (fuel + 1) =
      buddy_free_loop { s with free_area := s.free_area.set i rest }
        (if PAGE_TO_ADDR (ADDR_TO_PAGE (BUDDY_ADDR cur_off i)) < cur_off
         then PAGE_TO_ADDR (ADDR_TO_PAGE (BUDDY_ADDR cur_off i)) else cur_off)
        (if PAGE_TO_ADDR (ADDR_TO_PAGE (BUDDY_ADDR cur_off i)) < cur_off
         then ADDR_TO_PAGE (BUDDY_ADDR cur_off i) else index)
        (some q) (i + 1) fuel := by
  rw [buddy_free_loop]
  simp only [hlist]
  rw [if_pos (by rw [hq]), if_pos hlt]

/-- Filing the current block at order `i` (the stop branch of the
coalescing loop, buddy.c lines 188-191) restores the invariant: the
block joins `free_area[i]`, its head descriptor is cleared to `-1`,
and the configuration still tiles the arena. -/
theorem free_stop_state_inv (s s2 : BuddyState) (al : List (Nat × Nat)) (cur_off i : Nat)
    (hlenF : s.free_area.length = MAX_ORDER + 1)
    (hlenP : s.g_pages_order.length = N_PAGES)
    (hgc : GoodBlock (cur_off, i))
    (htile : ∀ a, a < MEMORY_SIZE →
      (al ++ freeBlocks s).countP (coversb a) +
        (if coversb a (cur_off, i) then 1 else 0) = 1)
    (hgood : ∀ b ∈ al ++ freeBlocks s, GoodBlock b)
    (hao : ∀ b ∈ al, s.g_pages_order.getD (ADDR_TO_PAGE b.1) 0 = (b.2 : Int))
    (hs2 : s2 = { g_pages_order := s.g_pages_order.set (ADDR_TO_PAGE cur_off) (-1)
                  free_area := s.free_area.set i
                    ((s.free_area.getD i []) ++ [ADDR_TO_PAGE cur_off]) }) :
    (ADDR_TO_PAGE cur_off) ∈ s2.free_area.getD i [] ∧
    s2.g_pages_order.getD (ADDR_TO_PAGE cur_off) 0 = -1 ∧
    BuddyInv s2 al := by
  have hi12 : MIN_ORDER ≤ i := hgc.1
  have hi20 : i ≤ MAX_ORDER := hgc.2.1
  have hib : cur_off + 2 ^ i ≤ MEMORY_SIZE := hgc.2.2.2
  have hipos : (0 : Nat) < 2 ^ i := Nat.pos_pow_of_pos _ (by norm_num)
  have hPScur : PAGE_SIZE ∣ cur_off := GoodBlock_PS_dvd hgc
  have hPTA_cur : PAGE_TO_ADDR (ADDR_TO_PAGE cur_off) = cur_off := PAGE_TO_ADDR_ATP hPScur
  have hidx_lt : ADDR_TO_PAGE cur_off < N_PAGES := ATP_lt_N_PAGES (by omega)
  have hfa2 : s2.free_area = s.free_area.set i ((s.free_area.getD i []) ++ [ADDR_TO_PAGE cur_off]) := by
    rw [hs2]
  have hg2 : s2.g_pages_order = s.g_pages_order.set (ADDR_TO_PAGE cur_off) (-1) := by
    rw [hs2]
  have hgetD_self : s2.free_area.getD i [] =
      (s.free_area.getD i []) ++ [ADDR_TO_PAGE cur_off] := by
    rw [hfa2]; exact getD_set_self _ _ _ _ (by omega)
  have hgetD_ne : ∀ j, j ≠ i → s2.free_area.getD j [] = s.free_area.getD j [] := by
    intro j hj
    rw [hfa2]; exact getD_set_ne _ _ _ (fun hx => hj hx.symm)
  have hal_ne_idx : ∀ b ∈ al, ADDR_TO_PAGE b.1 ≠ ADDR_TO_PAGE cur_off := by
    intro b hb heq
    have hb_good := hgood b (List.mem_append_left _ hb)
    have hb1 : b.1 = cur_off := by
      rw [← PAGE_TO_ADDR_ATP (GoodBlock_PS_dvd hb_good), heq, hPTA_cur]
    have htb := htile cur_off (by omega)
    rw [List.countP_append] at htb
    have hcov : coversb cur_off (cur_off, i) = true := coversb_of_range (le_refl _) (by omega)
    rw [if_pos hcov] at htb
    have : 0 < al.countP (coversb cur_off) :=
      List.countP_pos_iff.mpr ⟨b, hb, hb1 ▸ coversb_base b⟩
    omega
  refine ⟨by rw [hgetD_self]; exact List.mem_append_right _ (List.mem_singleton_self _),
          by rw [hg2]; exact getD_set_self _ _ _ _ (by omega), ?_⟩
  refine ⟨by rw [hg2]; simpa using hlenP, by rw [hfa2]; simpa using hlenF, ?_, ?_, ?_⟩
  · -- tiling
    intro a ha
    have hsurg := countP_freeBlocks_set s s2 i
      ((s.free_area.getD i []) ++ [ADDR_TO_PAGE cur_off]) (coversb a) hfa2
      (by omega) (by omega)
    rw [List.map_append, List.countP_append, List.map_cons, List.map_nil,
      List.countP_cons, List.countP_nil, hPTA_cur] at hsurg
    have htb := htile a ha
    rw [List.countP_append] at htb
    rw [List.countP_append]
    omega
  · -- goodness
    intro b hb
    rcases List.mem_append.mp hb with hb1 | hb2
    · exact hgood b (List.mem_append_left _ hb1)
    · obtain ⟨o2, ho2, q, hq, hbe⟩ := (freeBlocks_mem _ b).mp hb2
      by_cases ho2i : o2 = i
      · subst ho2i
        rw [hgetD_self] at hq
        rcases List.mem_append.mp hq with hq1 | hq2
        · exact hgood b (List.mem_append_right _
            ((freeBlocks_mem s b).mpr ⟨o2, ho2, q, hq1, hbe⟩))
        · have hqe : q = ADDR_TO_PAGE cur_off := by simpa using hq2
          subst hqe
          rw [hPTA_cur] at hbe
          exact hbe ▸ hgc
      · rw [hgetD_ne o2 ho2i] at hq
        exact hgood b (List.mem_append_right _
          ((freeBlocks_mem s b).mpr ⟨o2, ho2, q, hq, hbe⟩))
  · -- recorded orders
    intro b hb
    rw [hg2, getD_set_ne _ _ _ (fun hx => hal_ne_idx b hb hx.symm)]
    exact hao b hb

/-- Invariant preservation through the coalescing loop of `buddy_free`.
Starting from a configuration in which the in-flight list `al` plus
the free blocks plus the block being freed `(cur_off, i)` tile the
arena, the loop always terminates through the stop branch (in
particular a merge at `i = MAX_ORDER` is impossible, because the
order-`MAX_ORDER` buddy lies outside the arena and so can never be a
registered free block): it returns `some`, files the merged block on
`free_area[k]` for some `k ≤ MAX_ORDER` with its descriptor cleared to
`-1`, and the invariant holds again. -/
theorem buddy_free_loop_inv :
    ∀ (fuel i : Nat) (s : BuddyState) (al : List (Nat × Nat)) (cur_off : Nat)
      (temp : Option Nat),
      i + fuel = MAX_ORDER + 1 →
      s.free_area.length = MAX_ORDER + 1 →
      s.g_pages_order.length = N_PAGES →
      GoodBlock (cur_off, i) →
      (∀ t, temp = some t → cur_off ≤ PAGE_TO_ADDR t ∧ PAGE_TO_ADDR t < cur_off + 2 ^ i) →
      (∀ a, a < MEMORY_SIZE →
        (al ++ freeBlocks s).countP (coversb a) +
          (if coversb a (cur_off, i) then 1 else 0) = 1) →
      (∀ b ∈ al ++ freeBlocks s, GoodBlock b) →
      (∀ b ∈ al, s.g_pages_order.getD (ADDR_TO_PAGE b.1) 0 = (b.2 : Int)) →
      ∃ s2 k idx,
        buddy_free_loop s cur_off (ADDR_TO_PAGE cur_off) temp i fuel = some s2 ∧
        i ≤ k ∧ k ≤ MAX_ORDER ∧
        idx ∈ s2.free_area.getD k [] ∧
        s2.g_pages_order.getD idx 0 = -1 ∧
        BuddyInv s2 al := by
  intro fuel
  induction fuel with
  | zero =>
      intro i s al cur_off temp hfuel _ _ hgc _ _ _ _
      exact absurd hgc.2.1 (by omega)
  | succ fuel ih =>
      intro i s al cur_off temp hfuel hlenF hlenP hgc htemp htile hgood hao
      have hi12 : MIN_ORDER ≤ i := hgc.1
      have hi20 : i ≤ MAX_ORDER := hgc.2.1
      have hial : 2 ^ i ∣ cur_off := hgc.2.2.1
      have hib : cur_off + 2 ^ i ≤ MEMORY_SIZE := hgc.2.2.2
      have hipos : (0 : Nat) < 2 ^ i := Nat.pos_pow_of_pos _ (by norm_num)
      have hi1pos : (0 : Nat) < 2 ^ (i + 1) := Nat.pos_pow_of_pos _ (by norm_num)
      have hps : (2 : Nat) ^ (i + 1) = 2 ^ i + 2 ^ i := by rw [pow_succ]; omega
      have hPScur : PAGE_SIZE ∣ cur_off := GoodBlock_PS_dvd hgc
      have hPTA_cur : PAGE_TO_ADDR (ADDR_TO_PAGE cur_off) = cur_off := PAGE_TO_ADDR_ATP hPScur
      -- the two buddy geometries
      have hbud : (2 ^ (i + 1) ∣ cur_off ∧ BUDDY_ADDR cur_off i = cur_off + 2 ^ i) ∨
          (¬ 2 ^ (i + 1) ∣ cur_off ∧ BUDDY_ADDR cur_off i = cur_off - 2 ^ i ∧
           2 ^ i ≤ cur_off ∧ 2 ^ (i + 1) ∣ cur_off - 2 ^ i) := by
        by_cases hsp : 2 ^ (i + 1) ∣ cur_off
        · exact Or.inl ⟨hsp, BUDDY_ADDR_left hsp⟩
        · obtain ⟨m, hm⟩ := hial
          have hmodd : ¬ 2 ∣ m := by
            intro hdm
            obtain ⟨t, ht⟩ := hdm
            exact hsp ⟨t, by rw [hm, ht, pow_succ]; ring⟩
          have hm1 : m % 2 = 1 := by omega
          have hcur2 : cur_off = 2 ^ (i + 1) * (m / 2) + 2 ^ i := by
            have h1 : (2 : Nat) ^ (i + 1) * (m / 2) = 2 ^ i * (2 * (m / 2)) := by
              rw [pow_succ]; ring
            rw [h1, hm]
            have h2 : 2 ^ i * m = 2 ^ i * (2 * (m / 2)) + 2 ^ i * (m % 2) := by
              rw [← Nat.left_distrib]
              congr 1
              omega
            rw [h2, hm1]
            omega
          have hge : 2 ^ i ≤ cur_off := by
            have hm1le : 1 ≤ m := by omega
            rw [hm]
            exact Nat.le_mul_of_pos_right _ (by omega)
          exact Or.inr ⟨hsp, BUDDY_ADDR_right (hm ▸ ⟨m, rfl⟩) hsp, hge, ⟨m / 2, by omega⟩⟩
      have hPSb : PAGE_SIZE ∣ BUDDY_ADDR cur_off i := by
        rcases hbud with ⟨_, hba⟩ | ⟨_, hba, _, _⟩
        · rw [hba]; exact dvd_add hPScur (pow_dvd_pow 2 hi12)
        · rw [hba]; exact Nat.dvd_sub' hPScur (pow_dvd_pow 2 hi12)
      have hPTAb : PAGE_TO_ADDR (ADDR_TO_PAGE (BUDDY_ADDR cur_off i)) = BUDDY_ADDR cur_off i :=
        PAGE_TO_ADDR_ATP hPSb
      have hb_notin : ¬ (cur_off ≤ BUDDY_ADDR cur_off i ∧
          BUDDY_ADDR cur_off i < cur_off + 2 ^ i) := by
        rcases hbud with ⟨_, hba⟩ | ⟨_, hba, hle, _⟩ <;> rw [hba] <;> omega
      cases hlist : s.free_area.getD i [] with
      | nil =>
          have hstale : temp ≠ some (ADDR_TO_PAGE (BUDDY_ADDR cur_off i)) := by
            intro hst
            have := htemp _ hst
            rw [hPTAb] at this
            exact hb_notin this
          have hstep := buddy_free_loop_stop s cur_off (ADDR_TO_PAGE cur_off) temp i fuel
            (by rw [hlist]; exact hstale)
          obtain ⟨hmem2, hord2, hInv2⟩ := free_stop_state_inv s _ al cur_off i
            hlenF hlenP hgc htile hgood hao rfl
          exact ⟨_, i, ADDR_TO_PAGE cur_off, hstep, le_refl i, hi20, hmem2, hord2, hInv2⟩
      | cons q rest =>
          by_cases hqb : q = ADDR_TO_PAGE (BUDDY_ADDR cur_off i)
          · -- merge
            have hq_fb : (PAGE_TO_ADDR q, i) ∈ freeBlocks s :=
              (freeBlocks_mem s _).mpr
                ⟨i, hi20, q, by rw [hlist]; exact List.mem_cons_self _ _, rfl⟩
            have hqgood : GoodBlock (PAGE_TO_ADDR q, i) :=
              hgood _ (List.mem_append_right _ hq_fb)
            have hPTAq : PAGE_TO_ADDR q = BUDDY_ADDR cur_off i := by
              rw [hqb, hPTAb]
            have hqbound : BUDDY_ADDR cur_off i + 2 ^ i ≤ MEMORY_SIZE := by
              have := hqgood.2.2.2
              rwa [hPTAq] at this
            have hblt : ADDR_TO_PAGE (BUDDY_ADDR cur_off i) < N_PAGES :=
              ATP_lt_N_PAGES (by omega)
            have hstep := buddy_free_loop_merge s cur_off (ADDR_TO_PAGE cur_off) temp i fuel
              q rest hlist hqb hblt
            rw [hPTAb] at hstep
            have hi1le : i + 1 ≤ MAX_ORDER := by
              by_contra hc
              push_neg at hc
              have hie : i = MAX_ORDER := by omega
              subst hie
              have hmeq : MEMORY_SIZE = 2 ^ MAX_ORDER := rfl
              rcases hbud with ⟨_, hba⟩ | ⟨_, _, hle, _⟩
              · rw [hba] at hqbound
                omega
              · have hcur0 : cur_off = 0 := by omega
                omega
            set s1 : BuddyState := { s with free_area := s.free_area.set i rest } with hs1
            have hfa1 : s1.free_area = s.free_area.set i rest := rfl
            have hlen1F : s1.free_area.length = MAX_ORDER + 1 := by
              rw [hfa1]; simpa using hlenF
            have hlen1P : s1.g_pages_order.length = N_PAGES := hlenP
            have hgetD1_self : s1.free_area.getD i [] = rest := by
              rw [hfa1]; exact getD_set_self _ _ _ _ (by omega)
            have hgetD1_ne : ∀ j, j ≠ i →
                s1.free_area.getD j [] = s.free_area.getD j [] := by
              intro j hj
              rw [hfa1]; exact getD_set_ne _ _ _ (fun hx => hj hx.symm)
            have hsurg : ∀ a, (freeBlocks s1).countP (coversb a) +
                (if coversb a (BUDDY_ADDR cur_off i, i) then 1 else 0) =
                (freeBlocks s).countP (coversb a) := by
              intro a
              have := countP_freeBlocks_set s s1 i rest (coversb a) hfa1 (by omega) (by omega)
              rw [hlist, List.map_cons, List.countP_cons, hPTAq] at this
              omega
            have hfb1good : ∀ b ∈ al ++ freeBlocks s1, GoodBlock b := by
              intro b hb
              rcases List.mem_append.mp hb with hb1 | hb2
              · exact hgood b (List.mem_append_left _ hb1)
              · obtain ⟨o2, ho2, q2, hq2, hbe⟩ := (freeBlocks_mem _ b).mp hb2
                by_cases ho2i : o2 = i
                · subst ho2i
                  rw [hgetD1_self] at hq2
                  exact hgood b (List.mem_append_right _
                    ((freeBlocks_mem s b).mpr ⟨o2, ho2, q2,
                      by rw [hlist]; exact List.mem_cons_of_mem _ hq2, hbe⟩))
                · rw [hgetD1_ne o2 ho2i] at hq2
                  exact hgood b (List.mem_append_right _
                    ((freeBlocks_mem s b).mpr ⟨o2, ho2, q2, hq2, hbe⟩))
            rcases hbud with ⟨hsp, hba⟩ | ⟨hsp, hba, hle, hdvd⟩
            · -- left half : the merged block keeps cur_off
              rw [hba] at hstep
              rw [if_neg (by omega), if_neg (by omega)] at hstep
              have hgc2 : GoodBlock (cur_off, i + 1) := by
                refine ⟨by show MIN_ORDER ≤ i + 1; omega,
                        by show i + 1 ≤ MAX_ORDER; omega, hsp, ?_⟩
                show cur_off + 2 ^ (i + 1) ≤ MEMORY_SIZE
                rw [hba] at hqbound
                omega
              have htemp2 : ∀ t, (some q : Option Nat) = some t →
                  cur_off ≤ PAGE_TO_ADDR t ∧ PAGE_TO_ADDR t < cur_off + 2 ^ (i + 1) := by
                intro t ht
                have hte : t = q := (Option.some.inj ht).symm
                subst hte
                rw [hPTAq, hba]
                omega
              have htile2 : ∀ a, a < MEMORY_SIZE →
                  (al ++ freeBlocks s1).countP (coversb a) +
                    (if coversb a (cur_off, i + 1) then 1 else 0) = 1 := by
                intro a ha
                have h0 := htile a ha
                have h1 := hsurg a
                have h2 := coversb_split cur_off i a
                rw [← hba] at h2
                rw [List.countP_append] at h0 ⊢
                omega
              obtain ⟨s2, k, idx, hloop, hk1, hk2, hmem2, hord2, hInv2⟩ :=
                ih (i + 1) s1 al cur_off (some q) (by omega) hlen1F hlen1P hgc2
                  htemp2 htile2 hfb1good (fun b hb => hao b hb)
              rw [hstep]
              exact ⟨s2, k, idx, hloop, by omega, hk2, hmem2, hord2, hInv2⟩
            · -- right half : the merged block rebases to the buddy
              rw [hba] at hstep
              rw [if_pos (by omega), if_pos (by omega)] at hstep
              have hgc2 : GoodBlock (cur_off - 2 ^ i, i + 1) := by
                refine ⟨by show MIN_ORDER ≤ i + 1; omega,
                        by show i + 1 ≤ MAX_ORDER; omega, hdvd, ?_⟩
                show cur_off - 2 ^ i + 2 ^ (i + 1) ≤ MEMORY_SIZE
                omega
              have htemp2 : ∀ t, (some q : Option Nat) = some t →
                  cur_off - 2 ^ i ≤ PAGE_TO_ADDR t ∧
                  PAGE_TO_ADDR t < cur_off - 2 ^ i + 2 ^ (i + 1) := by
                intro t ht
                have hte : t = q := (Option.some.inj ht).symm
                subst hte
                rw [hPTAq, hba]
                omega
              have htile2 : ∀ a, a < MEMORY_SIZE →
                  (al ++ freeBlocks s1).countP (coversb a) +
                    (if coversb a (cur_off - 2 ^ i, i + 1) then 1 else 0) = 1 := by
                intro a ha
                have h0 := htile a ha
                have h1 := hsurg a
                rw [hba] at h1
                have h2 := coversb_split (cur_off - 2 ^ i) i a
                have h3 : cur_off - 2 ^ i + 2 ^ i = cur_off := by omega
                rw [h3] at h2
                rw [List.countP_append] at h0 ⊢
                omega
              obtain ⟨s2, k, idx, hloop, hk1, hk2, hmem2, hord2, hInv2⟩ :=
                ih (i + 1) s1 al (cur_off - 2 ^ i) (some q) (by omega) hlen1F hlen1P hgc2
                  htemp2 htile2 hfb1good (fun b hb => hao b hb)
              rw [hstep]
              exact ⟨s2, k, idx, hloop, by omega, hk2, hmem2, hord2, hInv2⟩
          · -- the first node is not the buddy : stop
            have hstep := buddy_free_loop_stop s cur_off (ADDR_TO_PAGE cur_off) temp i fuel
              (by rw [hlist]; intro hx; exact hqb (Option.some.inj hx))
            obtain ⟨hmem2, hord2, hInv2⟩ := free_stop_state_inv s _ al cur_off i
              hlenF hlenP hgc htile hgood hao rfl
            exact ⟨_, i, ADDR_TO_PAGE cur_off, hstep, le_refl i, hi20, hmem2, hord2, hInv2⟩

/-- A valid `buddy_free` — the address is that of an in-flight
allocation — always succeeds: it reads back the allocated order from
the descriptor, runs the coalescing loop, files the merged block at
some order between the freed order and `MAX_ORDER`, clears that head
descriptor to `-1`, and preserves the allocator invariant with the
freed entry removed from the in-flight list. -/
theorem buddy_free_spec (s : BuddyState) (al : List (Nat × Nat)) (addr o : Nat)
    (hInv : BuddyInv s al) (hmem : (addr, o) ∈ al) :
    ∃ s2 k idx,
      buddy_free s addr = some s2 ∧
      o ≤ k ∧ k ≤ MAX_ORDER ∧
      idx ∈ s2.free_area.getD k [] ∧
      s2.g_pages_order.getD idx 0 = -1 ∧
      BuddyInv s2 (al.eraseP (fun b => b.1 == addr)) := by
  have hgb : GoodBlock (addr, o) := hInv.good _ (List.mem_append_left _ hmem)
  have ho12 : MIN_ORDER ≤ o := hgb.1
  have ho20 : o ≤ MAX_ORDER := hgb.2.1
  have hal : 2 ^ o ∣ addr := hgb.2.2.1
  have hb : addr + 2 ^ o ≤ MEMORY_SIZE := hgb.2.2.2
  have hopos : (0 : Nat) < 2 ^ o := Nat.pos_pow_of_pos _ (by norm_num)
  have hPSaddr : PAGE_SIZE ∣ addr := GoodBlock_PS_dvd hgb
  have hPTA : PAGE_TO_ADDR (ADDR_TO_PAGE addr) = addr := PAGE_TO_ADDR_ATP hPSaddr
  have hpidx : ADDR_TO_PAGE addr < N_PAGES := ATP_lt_N_PAGES (by omega)
  have horder : s.g_pages_order.getD (ADDR_TO_PAGE addr) 0 = Int.ofNat o :=
    hInv.allocOrder _ hmem
  have hcov_addr : coversb addr (addr, o) = true := coversb_of_range (le_refl _) (by omega)
  -- uniqueness of the freed entry
  have huniq : ∀ x ∈ al, (x.1 == addr) = true → x = (addr, o) := by
    intro x hx hbeq
    have hx1 : x.1 = addr := by simpa using hbeq
    by_contra hne
    have hcovx : coversb addr x = true := hx1 ▸ coversb_base x
    have h2 := countP_two al (coversb addr) x (addr, o) hx hmem hne hcovx hcov_addr
    have htb := hInv.tiling addr (by omega)
    rw [List.countP_append] at htb
    omega
  have hperm : al.Perm ((addr, o) :: al.eraseP (fun b => b.1 == addr)) :=
    eraseP_perm_of_unique al _ (addr, o) hmem (by simp) huniq
  set al2 := al.eraseP (fun b => b.1 == addr) with hal2
  have hmem_al2 : ∀ b ∈ al2, b ∈ al := by
    intro b hb
    exact (hperm.mem_iff).mpr (List.mem_cons_of_mem _ hb)
  have htile2 : ∀ a, a < MEMORY_SIZE →
      (al2 ++ freeBlocks s).countP (coversb a) +
        (if coversb a (addr, o) then 1 else 0) = 1 := by
    intro a ha
    have htb := hInv.tiling a ha
    have hcp := hperm.countP_eq (coversb a)
    rw [List.countP_cons] at hcp
    rw [List.countP_append] at htb ⊢
    omega
  have hgood2 : ∀ b ∈ al2 ++ freeBlocks s, GoodBlock b := by
    intro b hb
    rcases List.mem_append.mp hb with hb1 | hb2
    · exact hInv.good b (List.mem_append_left _ (hmem_al2 b hb1))
    · exact hInv.good b (List.mem_append_right _ hb2)
  have hao2 : ∀ b ∈ al2, s.g_pages_order.getD (ADDR_TO_PAGE b.1) 0 = (b.2 : Int) :=
    fun b hb => hInv.allocOrder b (hmem_al2 b hb)
  obtain ⟨s2, k, idx, hloop, hk1, hk2, hmemk, hordk, hInv2⟩ :=
    buddy_free_loop_inv (MAX_ORDER + 1 - o) o s al2 addr none (by omega)
      hInv.lenF hInv.lenP hgb (fun t ht => Option.noConfusion ht) htile2 hgood2 hao2
  have hfree : buddy_free s addr = some s2 := by
    unfold buddy_free
    simp only []
    rw [if_pos hpidx, horder]
    show (if MIN_ORDER ≤ o ∧ o ≤ MAX_ORDER then
      buddy_free_loop s (PAGE_TO_ADDR (ADDR_TO_PAGE addr)) (ADDR_TO_PAGE addr) none o
        (MAX_ORDER + 1 - o) else none) = some s2
    rw [if_pos ⟨ho12, ho20⟩, hPTA]
    exact hloop
  exact ⟨s2, k, idx, hfree, hk1, hk2, hmemk, hordk, hInv2⟩

/-- A `buddy_alloc` that returns `NULL` leaves the state unchanged. -/
theorem buddy_alloc_none_frame (s : BuddyState) (size : Int) (s1 : BuddyState)
    (h : buddy_alloc s size = (none, s1)) : s1 = s := by
  cases hg : get_order size with
  | ofNat o =>
      have hexec : alloc_scan s o o (MAX_ORDER + 1 - o) = (none, s1) := by
        unfold buddy_alloc at h; rw [hg] at h; exact h
      have h1 : (alloc_scan s o o (MAX_ORDER + 1 - o)).1 = none := by rw [hexec]
      have := alloc_scan_none_frame (MAX_ORDER + 1 - o) o s o h1
      rw [hexec] at this
      exact this
  | negSucc n =>
      have hexec : buddy_alloc s size = (none, s) := by unfold buddy_alloc; rw [hg]
      rw [hexec] at h
      exact (congrArg Prod.snd h).symm

/-- The invariant holds right after `buddy_init`: nothing is in flight
and the single whole-arena block tiles the arena. -/
theorem buddy_init_inv : BuddyInv buddy_init [] := by
  have hfb : freeBlocks buddy_init = [(0, MAX_ORDER)] := rfl
  refine ⟨by simp [buddy_init], by simp [buddy_init], ?_, ?_, ?_⟩
  · intro a ha
    rw [List.nil_append, hfb, List.countP_cons, List.countP_nil]
    have hmeq : MEMORY_SIZE = 2 ^ MAX_ORDER := rfl
    have hcov : coversb a (0, MAX_ORDER) = true := coversb_of_range (Nat.zero_le a) (by omega)
    rw [hcov]
    simp
  · intro b hb
    rw [List.nil_append, hfb] at hb
    have hbe : b = (0, MAX_ORDER) := by simpa using hb
    subst hbe
    exact ⟨by show MIN_ORDER ≤ MAX_ORDER; decide, le_refl _, dvd_zero _,
      by show 0 + 2 ^ MAX_ORDER ≤ MEMORY_SIZE; rfl⟩
  · intro b hb
    cases hb

/-- One call preserves the invariant. -/
theorem step_inv (s : BuddyState) (al : List (Nat × Nat)) (op : Op)
    (s1 : BuddyState) (al1 : List (Nat × Nat))
    (hInv : BuddyInv s al) (h : step s al op = some (s1, al1)) :
    BuddyInv s1 al1 := by
  cases op with
  | alloc size =>
      rw [step] at h
      cases hba : buddy_alloc s size with
      | mk opt s2 =>
          rw [hba] at h
          cases opt with
          | some off =>
              obtain ⟨o, hgo, hgood, hInv2⟩ := buddy_alloc_spec s al size off s2 hInv hba
              have hs : s1 = s2 ∧ al1 = (off, (get_order size).toNat) :: al := by
                constructor
                · exact (congrArg Prod.fst (Option.some.inj h)).symm
                · exact (congrArg Prod.snd (Option.some.inj h)).symm
              obtain ⟨hseq, haleq⟩ := hs
              subst hseq
              subst haleq
              rw [hgo]
              simpa using hInv2
          | none =>
              have hs : s1 = s2 ∧ al1 = al := by
                constructor
                · exact (congrArg Prod.fst (Option.some.inj h)).symm
                · exact (congrArg Prod.snd (Option.some.inj h)).symm
              obtain ⟨hseq, haleq⟩ := hs
              subst hseq
              subst haleq
              rw [buddy_alloc_none_frame s size s1 hba]
              exact hInv
  | free addr =>
      rw [step] at h
      by_cases hany : al.any (fun b => decide (b.1 = addr)) = true
      · rw [if_pos hany] at h
        obtain ⟨b, hbmem, hbaddr⟩ := List.any_eq_true.mp hany
        have hbaddr2 : b.1 = addr := by simpa using hbaddr
        have hmemb : (addr, b.2) ∈ al := by
          have : b = (addr, b.2) := by
            rw [← hbaddr2]
          exact this ▸ hbmem
        obtain ⟨s2, k, idx, hfs, _, _, _, _, hInv2⟩ :=
          buddy_free_spec s al addr b.2 hInv hmemb
        rw [hfs] at h
        have hs : s1 = s2 ∧ al1 = al.eraseP (fun b => b.1 == addr) := by
          constructor
          · exact (congrArg Prod.fst (Option.some.inj h)).symm
          · exact (congrArg Prod.snd (Option.some.inj h)).symm
        obtain ⟨hseq, haleq⟩ := hs
        subst hseq
        subst haleq
        exact hInv2
      · rw [if_neg hany] at h
        cases h

/-- Executing any admissible call sequence preserves the invariant. -/
theorem run_inv :
    ∀ (ops : List Op) (s al s2 al2),
      BuddyInv s al → run s al ops = some (s2, al2) → BuddyInv s2 al2 := by
  intro ops
  induction ops with
  | nil =>
      intro s al s2 al2 hInv h
      rw [run] at h
      have hs : s2 = s ∧ al2 = al := by
        constructor
        · exact (congrArg Prod.fst (Option.some.inj h)).symm
        · exact (congrArg Prod.snd (Option.some.inj h)).symm
      obtain ⟨hseq, haleq⟩ := hs
      subst hseq
      subst haleq
      exact hInv
  | cons op ops ih =>
      intro s al s2 al2 hInv h
      rw [run] at h
      cases hst : step s al op with
      | some p =>
          rw [hst] at h
          exact ih p.1 p.2 s2 al2 (step_inv s al op p.1 p.2 hInv hst) h
      | none => rw [hst] at h; cases h

/-- Appending one call to a run. -/
theorem run_append_one :
    ∀ (ops : List Op) (s : BuddyState) (al : List (Nat × Nat)) (op : Op)
      (s1 : BuddyState) (al1 : List (Nat × Nat)),
      run s al ops = some (s1, al1) →
      run s al (ops ++ [op]) = (match step s1 al1 op with
        | some (s2, al2) => some (s2, al2)
        | none => none) := by
  intro ops
  induction ops with
  | nil =>
      intro s al op s1 al1 h
      rw [run] at h
      have hs : s1 = s ∧ al1 = al := by
        constructor
        · exact (congrArg Prod.fst (Option.some.inj h)).symm
        · exact (congrArg Prod.snd (Option.some.inj h)).symm
      obtain ⟨hseq, haleq⟩ := hs
      subst hseq
      subst haleq
      cases hst : step s1 al1 op with
      | some p => simp [run, hst]
      | none => simp [run, hst]
  | cons op0 ops ih =>
      intro s al op s1 al1 h
      rw [run] at h
      show run s al (op0 :: (ops ++ [op])) = _
      rw [run]
      cases hst : step s al op0 with
      | some p =>
          rw [hst] at h
          exact ih p.1 p.2 op s1 al1 h
      | none => rw [hst] at h; cases h

/-! ## Claim C1: conservation -/

/-- C1: for every sequence of `buddy_alloc`/`buddy_free` calls
starting from `buddy_init` in which every freed address was previously
returned by `buddy_alloc` and not yet freed (this is exactly what
`run` admits), after every call the byte ranges of the in-flight
allocated blocks together with the byte ranges of the blocks on the
free lists exactly tile the `2^MAX_ORDER`-byte arena: every byte of
the arena is covered by exactly one of those blocks — no gaps, no
overlaps.  (Quantifying over all `ops` covers every prefix, hence
"after every call".) -/
theorem claim_C1 (ops : List Op) (s : BuddyState) (al : List (Nat × Nat))
    (h : run buddy_init [] ops = some (s, al)) :
    ExactTiling (al ++ freeBlocks s) :=
  (run_inv ops buddy_init [] s al buddy_init_inv h).tiling

/-- C1 witness: the empty call sequence — the single whole-arena free
block tiles the arena. -/
theorem claim_C1_witness : ExactTiling ([] ++ freeBlocks buddy_init) :=
  claim_C1 [] buddy_init [] rfl

/-! ## Claims C3 and C7, amended -/

/-- C3 (amended): for every reachable state and every valid free
(the address of an in-flight allocation of order `o`), the coalescing
loop stops at some order `k` with `o ≤ k ≤ MAX_ORDER` and files the
merged block there — merging never proceeds past `MAX_ORDER` (a merge
at `MAX_ORDER` would require the out-of-arena buddy to be a registered
free block, which the invariant excludes).  The original claim's
second half is false: the loop body does run at `i = MAX_ORDER` and
computes the buddy page index `2^(MAX_ORDER-MIN_ORDER) = N_PAGES`,
one past `g_pages` (see the counterexample); but that one-past-the-end
pointer is only compared, never dereferenced. -/
theorem claim_C3_amended (ops : List Op) (s : BuddyState) (al : List (Nat × Nat))
    (addr o : Nat)
    (hrun : run buddy_init [] ops = some (s, al)) (hmem : (addr, o) ∈ al) :
    ∃ s2 al2 k idx,
      run buddy_init [] (ops ++ [Op.free addr]) = some (s2, al2) ∧
      o ≤ k ∧ k ≤ MAX_ORDER ∧
      idx ∈ s2.free_area.getD k [] ∧
      al2 = al.eraseP (fun b => b.1 == addr) := by
  have hInv := run_inv ops buddy_init [] s al buddy_init_inv hrun
  obtain ⟨s2, k, idx, hfs, hk1, hk2, hmemk, hordk, hInv2⟩ :=
    buddy_free_spec s al addr o hInv hmem
  have hany : al.any (fun b => decide (b.1 = addr)) = true :=
    List.any_eq_true.mpr ⟨(addr, o), hmem, by simp⟩
  have hstep : step s al (Op.free addr) =
      some (s2, al.eraseP (fun b => b.1 == addr)) := by
    rw [step, if_pos hany, hfs]
  have happ := run_append_one ops buddy_init [] (Op.free addr) s al hrun
  rw [hstep] at happ
  exact ⟨s2, al.eraseP (fun b => b.1 == addr), k, idx, happ, hk1, hk2, hmemk, rfl⟩

set_option maxRecDepth 40000 in
/-- C3 witness: freeing the whole-arena allocation. -/
theorem claim_C3_amended_witness :
    ∃ s2 al2 k idx,
      run buddy_init [] ([Op.alloc 1048576] ++ [Op.free 0]) = some (s2, al2) ∧
      20 ≤ k ∧ k ≤ MAX_ORDER ∧
      idx ∈ s2.free_area.getD k [] ∧
      al2 = [((0 : Nat), (20 : Nat))].eraseP (fun b => b.1 == 0) :=
  claim_C3_amended [Op.alloc 1048576] _ _ 0 20 rfl (by decide)

/-- C7 (amended): for every reachable state and every valid free, the
final (merged) block is inserted into the free list of the order `k`
at which merging stopped, but the block's head-page descriptor order
field is set to `-1` (the unset sentinel, buddy.c line 189), not to
`k` as the claim states. -/
theorem claim_C7_amended (ops : List Op) (s : BuddyState) (al : List (Nat × Nat))
    (addr o : Nat)
    (hrun : run buddy_init [] ops = some (s, al)) (hmem : (addr, o) ∈ al) :
    ∃ s2 al2 k idx,
      run buddy_init [] (ops ++ [Op.free addr]) = some (s2, al2) ∧
      o ≤ k ∧ k ≤ MAX_ORDER ∧
      idx ∈ s2.free_area.getD k [] ∧
      s2.g_pages_order.getD idx 0 = -1 := by
  have hInv := run_inv ops buddy_init [] s al buddy_init_inv hrun
  obtain ⟨s2, k, idx, hfs, hk1, hk2, hmemk, hordk, hInv2⟩ :=
    buddy_free_spec s al addr o hInv hmem
  have hany : al.any (fun b => decide (b.1 = addr)) = true :=
    List.any_eq_true.mpr ⟨(addr, o), hmem, by simp⟩
  have hstep : step s al (Op.free addr) =
      some (s2, al.eraseP (fun b => b.1 == addr)) := by
    rw [step, if_pos hany, hfs]
  have happ := run_append_one ops buddy_init [] (Op.free addr) s al hrun
  rw [hstep] at happ
  exact ⟨s2, al.eraseP (fun b => b.1 == addr), k, idx, happ, hk1, hk2, hmemk, hordk⟩

set_option maxRecDepth 40000 in
/-- C7 witness: freeing the whole-arena allocation files it at some
order with the descriptor cleared. -/
theorem claim_C7_amended_witness :
    ∃ s2 al2 k idx,
      run buddy_init [] ([Op.alloc 1048576] ++ [Op.free 0]) = some (s2, al2) ∧
      20 ≤ k ∧ k ≤ MAX_ORDER ∧
      idx ∈ s2.free_area.getD k [] ∧
      s2.g_pages_order.getD idx 0 = -1 :=
  claim_C7_amended [Op.alloc 1048576] _ _ 0 20 rfl (by decide)
